import Mathlib

/-!
Verification of the transcript word-count and keyword-tally pipeline
(`word_count.py`, class `Socialization_of_Emotion`).

The embedding works over `Str := List Char` (the program only ever handles
ASCII text).  Pure functions of the source are translated one-to-one; the
pandas `DataFrame` is modelled by an ordered association table.  The regular
expressions of the source are specific enough that greedy matching without
backtracking is exact (each quantified character class is disjoint from the
character that must follow it), so each pattern is embedded as a
maximal-munch matcher plus a left-to-right non-overlapping scanner, which is
`re.findall` / `re.search` semantics.  The keyword queries of `search_keys`,
by contrast, are arbitrary patterns, so they run through a model of the `re`
fragment they can contain: a parser with Python's error behaviour and a
backtracking matcher with Python's priority and scanning rules (see the
section on keyword queries below).
-/
abbrev Str := List Char

/-- ASCII lowering of one character (`str.lower` restricted to the ASCII
range, which is all the program's markup uses). -/
def lowerCh (c : Char) : Char :=
  if 65 ≤ c.toNat ∧ c.toNat ≤ 90 then Char.ofNat (c.toNat + 32) else c

/-- `text.lower()` on ASCII text. -/
def asciiLower (s : Str) : Str := s.map lowerCh

/-- Python regex `\s` on ASCII: space, tab, newline, carriage return,
vertical tab, form feed. -/
def isSpaceCh (c : Char) : Bool :=
  c = ' ' || c = '\t' || c = '\n' || c = '\r' || c.toNat = 11 || c.toNat = 12

/-- Python regex `\d` on ASCII. -/
def isDigitCh (c : Char) : Bool := 48 ≤ c.toNat && c.toNat ≤ 57

/-- ASCII letter. -/
def isAlphaCh (c : Char) : Bool :=
  (97 ≤ c.toNat && c.toNat ≤ 122) || (65 ≤ c.toNat && c.toNat ≤ 90)

/-- Python regex `\w` on ASCII. -/
def isWordCh (c : Char) : Bool := isAlphaCh c || isDigitCh c || c = '_'

/-- The character class `[a-zA-Z']` of the name-redaction pattern
(character 39 is the apostrophe). -/
def isNameCh (c : Char) : Bool := isAlphaCh c || c.toNat = 39

/-- Helper for `tokenCount`: the flag records whether the previous character
was part of a token. -/
def tokenCountAux : Bool → Str → Nat
  | _, [] => 0
  | inTok, c :: rest =>
    if isSpaceCh c then tokenCountAux false rest
    else (if inTok then 0 else 1) + tokenCountAux true rest

/-- `len(re.findall("(\S+)", text))` (line 163): the number of maximal runs
of non-whitespace characters. -/
def tokenCount (s : Str) : Nat := tokenCountAux false s

/-- Match of the page-marker pattern `\[([pP]age )(\d+-*\w*)\]`
(lines 134 and 164) at the start of the string.  Returns the second capture
group (the page label) together with the length of the whole match. -/
def pageAt : Str → Option (Str × Nat)
  | '[' :: p :: 'a' :: 'g' :: 'e' :: ' ' :: rest =>
    if p = 'p' ∨ p = 'P' then
      let ds := rest.takeWhile isDigitCh
      if ds = [] then none
      else
        let r1 := rest.dropWhile isDigitCh
        let hs := r1.takeWhile (fun c => c = '-')
        let r2 := r1.dropWhile (fun c => c = '-')
        let ws := r2.takeWhile isWordCh
        let r3 := r2.dropWhile isWordCh
        match r3 with
        | ']' :: _ => some (ds ++ hs ++ ws, 7 + ds.length + hs.length + ws.length)
        | _ => none
    else none
  | _ => none

/-- `re.search('\[([pP]age )(\d+-*\w*)\]', text)[2]` (lines 134-136): the
label of the leftmost page-marker match, if any. -/
def searchPage : Str → Option Str
  | [] => none
  | c :: rest =>
    match pageAt (c :: rest) with
    | some (lbl, _) => some lbl
    | none => searchPage rest

/-- Generic `re.findall` counter, structured on a fuel argument so that it
reduces in the kernel: scan left to right; on a match advance past it
(non-overlapping), otherwise advance one character.  `m` returns the length
of a match starting at the given position; all matchers used here consume
at least the leading character, so the scan shrinks the string at every
step and fuel equal to the length of the string is always enough. -/
def countAtFuel (m : Str → Option Nat) : Nat → Str → Nat
  | 0, _ => 0
  | _ + 1, [] => 0
  | fuel + 1, c :: rest =>
    match m (c :: rest) with
    | some n => 1 + countAtFuel m fuel (rest.drop (n - 1))
    | none => countAtFuel m fuel rest

/-- Number of non-overlapping, leftmost matches of `m` in the string. -/
def countAt (m : Str → Option Nat) (s : Str) : Nat := countAtFuel m s.length s

/-- Match of the correction pattern `\[\[\w+\]\]` (line 166) at the start
of the string, returning the match length. -/
def corrAt : Str → Option Nat
  | '[' :: '[' :: rest =>
    let ws := rest.takeWhile isWordCh
    if ws = [] then none
    else
      match rest.dropWhile isWordCh with
      | ']' :: ']' :: _ => some (4 + ws.length)
      | _ => none
  | _ => none

/-- Match of the name-redaction pattern `\[[a-zA-Z']+ name\]` (line 168) at
the start of the string, returning the match length. -/
def nameAt : Str → Option Nat
  | '[' :: rest =>
    let ls := rest.takeWhile isNameCh
    if ls = [] then none
    else
      match rest.dropWhile isNameCh with
      | ' ' :: 'n' :: 'a' :: 'm' :: 'e' :: ']' :: _ => some (7 + ls.length)
      | _ => none
  | _ => none

/-- `len(re.findall(r'\[([pP]age )(\d+-*\w*)\]', text))` (line 164). -/
def pageCount (s : Str) : Nat := countAt (fun u => (pageAt u).map Prod.snd) s

/-- `len(re.findall(r'\[\[\w+\]\]', text))` (line 166). -/
def corrCount (s : Str) : Nat := countAt corrAt s

/-- `len(re.findall(r'\[[a-zA-Z\']+ name\]', text))` (line 168). -/
def nameCount (s : Str) : Nat := countAt nameAt s

/-- `words = wordcount - 2*pageNum - wordCorrect - name` (line 170). -/
def netWords (s : Str) : Int :=
  (tokenCount s : Int) - 2 * (pageCount s : Int) - (corrCount s : Int) - (nameCount s : Int)

/-- The apostrophe character. -/
def aposCh : Char := Char.ofNat 39

/-- The example paragraph of the word-count specification,
`[Page 3] Hello [[helo]] world [child's name]`. -/
def exPara : Str :=
  ("[Page 3] Hello [[helo]] world [child".data) ++ [aposCh] ++ ("s name]".data)

/-! ### The results table

`df_counts` (a pandas `DataFrame` with the six fixed columns of line 98) is
modelled as an ordered association list from row index to a record with one
field per column; `none` models a NaN cell.  `.loc[k, col] = v` on a fresh
index appends a row whose other cells are NaN, which is `updateRows` below.
-/
structure Row where
  ID : Option Str
  PageNum : Option Str
  P_transcript : Option Str
  C_transcript : Option Str
  P_WordCount : Option Int
  C_WordCount : Option Int
deriving DecidableEq

/-- A freshly created row: every cell NaN. -/
def emptyRow : Row := ⟨none, none, none, none, none, none⟩

instance : Inhabited Row := ⟨emptyRow⟩

abbrev Table := List (Str × Row)

/-- Lookup of a row by index. -/
def lookupRow : Table → Str → Option Row
  | [], _ => none
  | (k0, r) :: rest, k => if k0 = k then some r else lookupRow rest k

/-- Read a row, defaulting to the all-NaN row.  (The source only ever reads
rows that exist; the default is never observable.) -/
def getRow (t : Table) (k : Str) : Row := (lookupRow t k).getD emptyRow

/-- Read-modify-write of the row at index `k`; if the index is absent a new
row is appended at the end, as pandas label assignment does. -/
def updateRows : Table → Str → (Row → Row) → Table
  | [], k, f => [(k, f emptyRow)]
  | (k0, r) :: rest, k, f =>
    if k0 = k then (k0, f r) :: rest else (k0, r) :: updateRows rest k f

/-- The row indices, in table order. -/
def tableKeys (t : Table) : List Str := t.map Prod.fst

/-! ### The per-paragraph parse step (`_updateWordCount`, lines 125-174) -/
structure ParseState where
  currIndex : Option Str
  currPage : Option Str
  currSpeaker : Option Str
deriving DecidableEq

def parenTag : Str := ('p' :: 'a' :: 'r' :: 'e' :: 'n' :: [])

def childTag : Str := ('c' :: 'h' :: 'i' :: 'l' :: 'd' :: [])

/-- `currDoc + '-Page-' + currPage` (line 137). -/
def rowIndexOf (currDoc lbl : Str) : Str := currDoc ++ ("-Page-".data) ++ lbl

/-- Line 138 of the source, `currPage.lower == 'stop'`, compares the bound
method object `currPage.lower` (it is never called) with the string
`'stop'`; in Python that comparison is always `False`, so the
`'Stop Page Detected'` branch is unreachable and the row is always
created. -/
def stopCheck (_currPage : Str) : Bool := false

/-- Lines 129-131: speaker-change detection on the first five characters,
lower-cased. -/
def speakerStep (st : ParseState) (text : Str) : ParseState :=
  if asciiLower (text.take 5) = parenTag ∨ asciiLower (text.take 5) = childTag then
    { st with currSpeaker := some (asciiLower (text.take 5)) }
  else st

/-- Lines 133-143: page-change detection; on a match set the current page
and row index and (unless the dead stop branch fires) create/refresh the
row's `ID` and `PageNum` cells. -/
def pageStep (doc : Str) (st : ParseState) (tbl : Table) (text : Str) :
    ParseState × Table :=
  match searchPage text with
  | some lbl =>
    ({ st with currPage := some lbl, currIndex := some (rowIndexOf doc lbl) },
     if stopCheck lbl then tbl
     else updateRows tbl (rowIndexOf doc lbl)
            (fun r => { r with ID := some doc, PageNum := some lbl }))
  | none => (st, tbl)

/-- Lines 146-154: append the paragraph text (preceded by a space) to the
current speaker's transcript cell, initializing a NaN cell to the empty
string first; no speaker, no update. -/
def transcriptStep (sp : Option Str) (idx : Str) (tbl : Table) (text : Str) : Table :=
  if sp = some parenTag then
    updateRows tbl idx (fun r =>
      { r with P_transcript := some ((r.P_transcript.getD []) ++ ' ' :: text) })
  else if sp = some childTag then
    updateRows tbl idx (fun r =>
      { r with C_transcript := some ((r.C_transcript.getD []) ++ ' ' :: text) })
  else tbl

/-- Lines 156-160: initialize NaN word-count cells of the current row to 0. -/
def initWcStep (idx : Str) (tbl : Table) : Table :=
  updateRows tbl idx (fun r =>
    { r with P_WordCount := some (r.P_WordCount.getD 0),
             C_WordCount := some (r.C_WordCount.getD 0) })

/-- Lines 162-174: add the net word count of the paragraph to the current
speaker's word-count cell; no speaker, no update. -/
def wcStep (sp : Option Str) (idx : Str) (tbl : Table) (text : Str) : Table :=
  if sp = some parenTag then
    updateRows tbl idx (fun r =>
      { r with P_WordCount := some (r.P_WordCount.getD 0 + netWords text) })
  else if sp = some childTag then
    updateRows tbl idx (fun r =>
      { r with C_WordCount := some (r.C_WordCount.getD 0 + netWords text) })
  else tbl

/-- One iteration of the paragraph loop of `_updateWordCount`
(lines 126-174), mapped over `(state, table)`: skip empty paragraphs, then
speaker detection, then page detection, then (when a row is active) the
transcript/word-count accumulation block. -/
def updatePara (currDoc : Str) (acc : ParseState × Table) (text : Str) :
    ParseState × Table :=
  if text = [] then acc
  else
    let st := speakerStep acc.1 text
    let stTbl := pageStep currDoc st acc.2 text
    match stTbl.1.currIndex with
    | none => stTbl
    | some idx =>
      (stTbl.1,
       wcStep stTbl.1.currSpeaker idx
         (initWcStep idx (transcriptStep stTbl.1.currSpeaker idx stTbl.2 text)) text)

/-- `_updateWordCount(filename)`: parse one document (its list of paragraph
texts) into the running table.  `currDoc` is the document's base name. -/
def updateWordCount (currDoc : Str) (paras : List Str) (tbl : Table) : Table :=
  (paras.foldl (updatePara currDoc) (⟨none, none, none⟩, tbl)).2

/-- `filename.split('.')[-1]` (line 102): the part after the last dot, or
the whole name when there is no dot. -/
def afterLastDot (s : Str) : Str := (s.reverse.takeWhile (fun c => ¬ c = '.')).reverse

/-- `filename.split(os.sep)[-1][:-5]` (line 118) for the names produced by
`_setUp` (a directory entry never contains the separator): drop the last
five characters, i.e. the `.docx` extension. -/
def docBaseName (filename : Str) : Str := filename.take (filename.length - 5)

/-- `_setUp` (lines 96-107), with the sequence of `to_csv` calls made
explicit: for each directory entry whose extension is `docx`, parse it into
the running table and then write the table to the save file.  Returns the
list of successively written snapshots (the save file is overwritten each
time, so after `k` documents the file on disk is the `k`-th entry). -/
def setUpWrites : Table → List (Str × List Str) → List Table
  | _, [] => []
  | tbl, (fname, paras) :: rest =>
    if afterLastDot fname = ("docx".data) then
      let tbl2 := updateWordCount (docBaseName fname) paras tbl
      tbl2 :: setUpWrites tbl2 rest
    else setUpWrites tbl rest

/-- The documents of the directory listing that `_setUp` actually parses,
in order. -/
def docxEntries (docs : List (Str × List Str)) : List (Str × List Str) :=
  docs.filter (fun d => afterLastDot d.1 = ("docx".data))

/-- Parsing a batch of (already filtered) documents into a table. -/
def parseBatch (tbl : Table) (docs : List (Str × List Str)) : Table :=
  docs.foldl (fun t d => updateWordCount (docBaseName d.1) d.2 t) tbl

/-- The final `df_counts` produced by `_setUp` on a directory listing. -/
def setUpTable (docs : List (Str × List Str)) : Table :=
  parseBatch [] (docxEntries docs)

/-! ### Page labels always begin with a digit, so no label is `stop` -/
/-- The shape of every label the page-marker pattern can capture: the
capture group is `\d+-*\w*`, so it begins with a digit. -/
def DigitHead (l : Str) : Prop := ∃ c cs, l = c :: cs ∧ isDigitCh c = true

/-- Invariant: a row's `PageNum` cell, when set, holds a label captured by
the page pattern, hence one beginning with a digit. -/
def PageNumOk (r : Row) : Prop := ∀ l, r.PageNum = some l → DigitHead l

/-! ### Row identity: one row per distinct page label (C4) -/
/-- Key insertion as performed by `updateRows` on a fresh index. -/
def insertNew (ks : List Str) (k : Str) : List Str :=
  if k ∈ ks then ks else ks ++ [k]

/-- The labels registered while walking a document's paragraphs: the
leftmost page-marker match of each paragraph, in order. -/
def pageLabels (paras : List Str) : List Str := paras.filterMap searchPage

/-! ### The net word-count contribution of a paragraph (C2) -/
/-- The parent word-count cell of a row, reading NaN as 0 (which is how the
source initializes it before adding, lines 157-158 and 172). -/
def wcValP (t : Table) (k : Str) : Int := ((getRow t k).P_WordCount).getD 0

/-- The child word-count cell of a row, reading NaN as 0. -/
def wcValC (t : Table) (k : Str) : Int := ((getRow t k).C_WordCount).getD 0

/-- A one-row table used by concrete witnesses. -/
def exTbl : Table :=
  [(("d-Page-1".data),
    ⟨some ("d".data), some ("1".data), none, none, some 0, some 0⟩)]

/-- The paragraphs of the C3 scenario: pages 1, 2, "stop", 3, with the
stop page carrying the parent text "ignored". -/
def ex3Paras : List Str :=
  [("Parent: hello".data), ("[Page 1] one".data), ("[Page 2] two".data),
   ("[Page stop]".data), ("ignored".data), ("[Page 3] three".data)]

/-! ### Keyword tallying (`search_keys`, lines 176-198)

`search_keys` can run on a table reloaded from a CSV checkpoint, whose
columns are not fixed, so here the `DataFrame` is modelled dynamically: a
column-name list plus one association list of cells per row. -/
inductive Cell where
  | blank
  | num (n : Int)
  | str (s : Str)
deriving DecidableEq

instance : Inhabited Cell := ⟨Cell.blank⟩

abbrev RowCells := List (Str × Cell)

structure DynTable where
  cols : List Str
  rows : List RowCells
deriving DecidableEq

instance : Inhabited DynTable := ⟨⟨[], []⟩⟩

def lookupCell : RowCells → Str → Option Cell
  | [], _ => none
  | (c0, v) :: rest, c => if c0 = c then some v else lookupCell rest c

/-- Read a cell; absent cells are NaN. -/
def getCell (row : RowCells) (c : Str) : Cell := (lookupCell row c).getD Cell.blank

def setCell : RowCells → Str → Cell → RowCells
  | [], c, v => [(c, v)]
  | (c0, w) :: rest, c, v =>
    if c0 = c then (c0, v) :: rest else (c0, w) :: setCell rest c v

/-- Write one value per row into column `c` (creating the column if new),
which is what `df.loc[:, c] = series` does. -/
def setColRows (c : Str) : List RowCells → List Cell → List RowCells
  | [], _ => []
  | _ :: _, [] => []
  | row :: rows, v :: vs => setCell row c v :: setColRows c rows vs

def addColName (cols : List Str) (c : Str) : List Str :=
  if c ∈ cols then cols else cols ++ [c]

def setCol (t : DynTable) (c : Str) (vs : List Cell) : DynTable :=
  ⟨addColName t.cols c, setColRows c t.rows vs⟩

/-- One column as a list of cells, in row order. -/
def getCol (t : DynTable) (c : Str) : List Cell :=
  t.rows.map (fun row => getCell row c)

/-- Non-overlapping, leftmost count of the literal pattern `pat` — the
substring-count semantics the specification fixes for plain literal
queries (fuel-structured like `countAtFuel`).  An empty pattern counts
as 0 here. -/
def countSubstrFuel (pat : Str) : Nat → Str → Nat
  | 0, _ => 0
  | _ + 1, [] => 0
  | fuel + 1, c :: rest =>
    if !pat.isEmpty && pat.isPrefixOf (c :: rest) then
      1 + countSubstrFuel pat fuel (rest.drop (pat.length - 1))
    else countSubstrFuel pat fuel rest

def countSubstr (pat s : Str) : Nat := countSubstrFuel pat s.length s

/-! ### The keyword queries as Python regular expressions

Line 192 evaluates `series.str.lower().str.count(query)`, and pandas hands
`query` to the `re` module as a pattern, so keyword counting is
regex-match counting, not literal substring counting.  The `re` module is
an external collaborator (its code is not in this repository); the model
below follows its documented semantics on the fragment a keyword cell can
contain: literal characters, the escapes `\d \D \w \W \s \S`, the control
escapes `\n \t \r \f \v \a`, escaped punctuation, `.`, character classes
with ranges, negation and the same escapes, alternation, plain and
non-capturing groups, and the greedy and lazy quantifiers (a brace that
does not form a quantifier is a literal, as in Python).  Invalid patterns
are rejected with an error, as `re.compile` raises `re.error`: a bad
escape, an unterminated group or character set, a stray quantifier or
parenthesis, a doubled quantifier, a reversed range or counted repeat.
Constructs outside the fragment (anchors, the zero-width escapes, group
extensions other than the non-capturing one, numeric and hex escapes) are
also rejected, with a message naming them.  Matching is Python
backtracking: alternatives are tried left to right, greedy quantifiers
consume as much as possible first, lazy ones as little, an empty
repetition of a loop body ends the loop, and `str.count` counts the
non-overlapping matches found scanning left to right (an empty match
advances the scan by one character). -/
def bslashCh : Char := Char.ofNat 92

/-- The opening brace character. -/
def lbraceCh : Char := Char.ofNat 123

/-- The closing brace character. -/
def rbraceCh : Char := Char.ofNat 125

/-- One item of a character class `[...]`: a single character, a range, or
one of the shorthand classes. -/
inductive ClsIt where
  | one : Char → ClsIt
  | range : Char → Char → ClsIt
  | dig
  | ndig
  | wrd
  | nwrd
  | spc
  | nspc

/-- A single-character test: `.` (any character but a newline), a literal
character, a shorthand class, or a bracketed class (the Bool is the `^`
negation flag). -/
inductive CSet where
  | any
  | one : Char → CSet
  | dig
  | ndig
  | wrd
  | nwrd
  | spc
  | nspc
  | cls : Bool → List ClsIt → CSet

/-- Abstract syntax of the modelled regex fragment.  `star` with flag true
is greedy, with flag false lazy; `+`, `?` and counted repeats are
desugared by the parser. -/
inductive RE where
  | eps
  | cset : CSet → RE
  | seq : RE → RE → RE
  | alt : RE → RE → RE
  | star : RE → Bool → RE

/-- Does one class item accept the character? -/
def clsItTest (it : ClsIt) (c : Char) : Bool :=
  match it with
  | ClsIt.one a => c == a
  | ClsIt.range a b => Nat.ble a.toNat c.toNat && Nat.ble c.toNat b.toNat
  | ClsIt.dig => isDigitCh c
  | ClsIt.ndig => !isDigitCh c
  | ClsIt.wrd => isWordCh c
  | ClsIt.nwrd => !isWordCh c
  | ClsIt.spc => isSpaceCh c
  | ClsIt.nspc => !isSpaceCh c

/-- Does the single-character test accept the character? -/
def csetTest (t : CSet) (c : Char) : Bool :=
  match t with
  | CSet.any => !(c == Char.ofNat 10)
  | CSet.one a => c == a
  | CSet.dig => isDigitCh c
  | CSet.ndig => !isDigitCh c
  | CSet.wrd => isWordCh c
  | CSet.nwrd => !isWordCh c
  | CSet.spc => isSpaceCh c
  | CSet.nspc => !isSpaceCh c
  | CSet.cls neg its =>
    if neg then !(its.any (fun it => clsItTest it c))
    else its.any (fun it => clsItTest it c)

/-- Error-propagating bind on `Except`, written out so that proofs can
rewrite with one equation per constructor. -/
def exBind {α β : Type} (r : Except Str α) (f : α → Except Str β) :
    Except Str β :=
  match r with
  | Except.error e => Except.error e
  | Except.ok a => f a

/-- Numeric value of a digit string. -/
def digitsVal (s : Str) : Nat := s.foldl (fun a c => 10 * a + (c.toNat - 48)) 0

/-- An escape outside a character class.  Per `re`: shorthand classes and
control characters as listed; an unknown escaped letter or digit raises
(covering the numeric, hex and unicode escapes, outside the fragment, and
the zero-width `\b \B \A \Z`, also outside the fragment); escaped
punctuation is the literal character. -/
def escRE (c : Char) : Except Str RE :=
  if c = 'd' then Except.ok (RE.cset CSet.dig)
  else if c = 'D' then Except.ok (RE.cset CSet.ndig)
  else if c = 'w' then Except.ok (RE.cset CSet.wrd)
  else if c = 'W' then Except.ok (RE.cset CSet.nwrd)
  else if c = 's' then Except.ok (RE.cset CSet.spc)
  else if c = 'S' then Except.ok (RE.cset CSet.nspc)
  else if c = 'n' then Except.ok (RE.cset (CSet.one (Char.ofNat 10)))
  else if c = 't' then Except.ok (RE.cset (CSet.one (Char.ofNat 9)))
  else if c = 'r' then Except.ok (RE.cset (CSet.one (Char.ofNat 13)))
  else if c = 'f' then Except.ok (RE.cset (CSet.one (Char.ofNat 12)))
  else if c = 'v' then Except.ok (RE.cset (CSet.one (Char.ofNat 11)))
  else if c = 'a' then Except.ok (RE.cset (CSet.one (Char.ofNat 7)))
  else if isAlphaCh c || isDigitCh c then Except.error ("bad escape".data)
  else Except.ok (RE.cset (CSet.one c))

/-- An escape inside a character class: as `escRE`, except that `\b` is
the backspace character there. -/
def escCls (c : Char) : Except Str ClsIt :=
  if c = 'd' then Except.ok ClsIt.dig
  else if c = 'D' then Except.ok ClsIt.ndig
  else if c = 'w' then Except.ok ClsIt.wrd
  else if c = 'W' then Except.ok ClsIt.nwrd
  else if c = 's' then Except.ok ClsIt.spc
  else if c = 'S' then Except.ok ClsIt.nspc
  else if c = 'n' then Except.ok (ClsIt.one (Char.ofNat 10))
  else if c = 't' then Except.ok (ClsIt.one (Char.ofNat 9))
  else if c = 'r' then Except.ok (ClsIt.one (Char.ofNat 13))
  else if c = 'f' then Except.ok (ClsIt.one (Char.ofNat 12))
  else if c = 'v' then Except.ok (ClsIt.one (Char.ofNat 11))
  else if c = 'a' then Except.ok (ClsIt.one (Char.ofNat 7))
  else if c = 'b' then Except.ok (ClsIt.one (Char.ofNat 8))
  else if isAlphaCh c || isDigitCh c then Except.error ("bad escape".data)
  else Except.ok (ClsIt.one c)

/-- A range endpoint must be a single character, in order. -/
def mkRange (a b : ClsIt) : Except Str ClsIt :=
  match a, b with
  | ClsIt.one x, ClsIt.one y =>
    if y.toNat < x.toNat then Except.error ("bad character range".data)
    else Except.ok (ClsIt.range x y)
  | _, _ => Except.error ("bad character range".data)

/-- One class item starting at the already-consumed character `c`. -/
def parseClassAtom (c : Char) (rest : Str) : Except Str (ClsIt × Str) :=
  if c = bslashCh then
    match rest with
    | [] => Except.error ("bad escape at end of pattern".data)
    | e :: r2 => exBind (escCls e) (fun it => Except.ok (it, r2))
  else Except.ok (ClsIt.one c, rest)

/-- The items of a class up to and including the closing `]`.  The
`Option ClsIt` carries an item already parsed but not yet emitted, so that
a following `-` can turn it into a range; a trailing `-` is a literal. -/
def parseClassSeq : Nat → Option ClsIt → Str → Except Str (List ClsIt × Str)
  | 0, _, _ => Except.error ("character set too deep".data)
  | f + 1, none, s =>
    match s with
    | [] => Except.error ("unterminated character set".data)
    | c :: rest =>
      if c = ']' then Except.ok ([], rest)
      else
        exBind (parseClassAtom c rest) (fun p => parseClassSeq f (some p.1) p.2)
  | f + 1, some it, s =>
    match s with
    | [] => Except.error ("unterminated character set".data)
    | d :: r3 =>
      if d = '-' then
        match r3 with
        | [] => Except.error ("unterminated character set".data)
        | e :: r4 =>
          if e = ']' then Except.ok ([it, ClsIt.one d], r4)
          else
            exBind (parseClassAtom e r4) (fun p =>
              exBind (mkRange it p.1) (fun rg =>
                exBind (parseClassSeq f none p.2) (fun q =>
                  Except.ok (rg :: q.1, q.2))))
      else
        exBind (parseClassSeq f none s) (fun q => Except.ok (it :: q.1, q.2))

/-- A class body after the optional `^`: a `]` in first position is a
literal item (and may start a range), as in Python. -/
def parseClassBody (f : Nat) (neg : Bool) (s : Str) : Except Str (RE × Str) :=
  match s with
  | [] => Except.error ("unterminated character set".data)
  | c :: rest =>
    exBind (if c = ']' then parseClassSeq f (some (ClsIt.one c)) rest
            else parseClassSeq f none (c :: rest))
      (fun q => Except.ok (RE.cset (CSet.cls neg q.1), q.2))

/-- A character class, entered just after its `[`. -/
def parseClassRE (f : Nat) (s : Str) : Except Str (RE × Str) :=
  match s with
  | [] => Except.error ("unterminated character set".data)
  | c :: rest =>
    if c = '^' then parseClassBody f true rest else parseClassBody f false s

/-- `r?`: greedy tries the body first, lazy tries skipping first. -/
def optRE (a : RE) (greedy : Bool) : RE :=
  if greedy then RE.alt a RE.eps else RE.alt RE.eps a

/-- Up to `k` further copies of `a`, with the given greediness at each
step (the tail of a counted repeat `a{m,n}`). -/
def optChain (a : RE) (greedy : Bool) : Nat → RE
  | 0 => RE.eps
  | k + 1 => optRE (RE.seq a (optChain a greedy k)) greedy

/-- Exactly `m` copies of `a` in front of `tail` (the head of a counted
repeat). -/
def repCore (a : RE) : Nat → RE → RE
  | 0, tail => tail
  | m + 1, tail => RE.seq a (repCore a m tail)

/-- Split a lazy-quantifier marker `?` off the front of the rest of the
pattern. -/
def lazySplit (s : Str) : Bool × Str :=
  match s with
  | [] => (false, s)
  | c :: r => if c = '?' then (true, r) else (false, s)

/-- The body of a counted repeat, entered just after its `{`: digits,
optionally a comma and digits, then `}` (an absent lower bound is 0, an
absent upper bound is unbounded).  Returns the bounds and the rest, or
`none` when the braces do not form a quantifier and are literal, as in
Python. -/
def parseQuantSpec (s : Str) : Option (Nat × Option Nat × Str) :=
  let d1 := s.takeWhile isDigitCh
  match s.dropWhile isDigitCh with
  | [] => none
  | c :: r2 =>
    if c = rbraceCh then
      if d1.isEmpty then none
      else some (digitsVal d1, some (digitsVal d1), r2)
    else if c = ',' then
      let d2 := r2.takeWhile isDigitCh
      match r2.dropWhile isDigitCh with
      | [] => none
      | c2 :: r4 =>
        if c2 = rbraceCh then
          some (digitsVal d1,
                if d2.isEmpty then none else some (digitsVal d2), r4)
        else none
    else none

/-- Does a further quantifier follow (the `multiple repeat` error of
`re`)? -/
def quantFollows (s : Str) : Bool :=
  match s with
  | [] => false
  | c :: r =>
    if c = '*' ∨ c = '+' ∨ c = '?' then true
    else if c = lbraceCh then (parseQuantSpec r).isSome
    else false

/-- The quantifiers that may follow a parsed atom `a`: `* + ?` and the
counted repeats, each with an optional lazy marker, desugared onto the
core syntax; a doubled quantifier and a reversed counted repeat raise, as
in `re`. -/
def parseQuants (a : RE) (s : Str) : Except Str (RE × Str) :=
  match s with
  | [] => Except.ok (a, [])
  | c :: rest =>
    if c = '*' then
      let p := lazySplit rest
      if quantFollows p.2 then Except.error ("multiple repeat".data)
      else Except.ok (RE.star a (!p.1), p.2)
    else if c = '+' then
      let p := lazySplit rest
      if quantFollows p.2 then Except.error ("multiple repeat".data)
      else Except.ok (RE.seq a (RE.star a (!p.1)), p.2)
    else if c = '?' then
      let p := lazySplit rest
      if quantFollows p.2 then Except.error ("multiple repeat".data)
      else Except.ok (optRE a (!p.1), p.2)
    else if c = lbraceCh then
      match parseQuantSpec rest with
      | none => Except.ok (a, c :: rest)
      | some (m, bound, r2) =>
        let p := lazySplit r2
        if quantFollows p.2 then Except.error ("multiple repeat".data)
        else
          match bound with
          | none => Except.ok (repCore a m (RE.star a (!p.1)), p.2)
          | some n =>
            if n < m then Except.error ("min repeat greater than maximum".data)
            else Except.ok (repCore a m (optChain a (!p.1) (n - m)), p.2)
    else Except.ok (a, c :: rest)

/-- A group body parsed by `pAlt`, which must be followed by `)`.  Groups
only group here: `str.count` counts whole matches, so capturing and
non-capturing groups count alike. -/
def parseGroupF (pAlt : Str → Except Str (RE × Str)) (s : Str) :
    Except Str (RE × Str) :=
  exBind (pAlt s) (fun p =>
    match p.2 with
    | [] => Except.error ("missing ), unterminated subpattern".data)
    | c :: r2 =>
      if c = ')' then Except.ok (p.1, r2)
      else Except.error ("missing ), unterminated subpattern".data))

/-- One atom of a pattern: a group, a class, an escape, `.`, or a literal
character; a stray quantifier raises `nothing to repeat` and the anchors
are outside the fragment.  `pAlt` parses nested alternations (the
recursion is tied at `parseAltF`). -/
def parseAtomF (pAlt : Str → Except Str (RE × Str)) : Str → Except Str (RE × Str)
  | [] => Except.error ("unexpected end of pattern".data)
  | c :: rest =>
    if c = '(' then
      match rest with
      | [] => Except.error ("missing ), unterminated subpattern".data)
      | g :: r1 =>
        if g = '?' then
          match r1 with
          | [] => Except.error ("unexpected end of pattern".data)
          | g2 :: r2 =>
            if g2 = ':' then parseGroupF pAlt r2
            else Except.error ("group extensions are outside the modelled fragment".data)
        else parseGroupF pAlt (g :: r1)
    else if c = '[' then parseClassRE (2 * rest.length + 2) rest
    else if c = bslashCh then
      match rest with
      | [] => Except.error ("bad escape at end of pattern".data)
      | e :: r2 => exBind (escRE e) (fun r => Except.ok (r, r2))
    else if c = '.' then Except.ok (RE.cset CSet.any, rest)
    else if c = '*' ∨ c = '+' ∨ c = '?' then
      Except.error ("nothing to repeat".data)
    else if c = '^' ∨ c = '$' then
      Except.error ("anchors are outside the modelled fragment".data)
    else if c = lbraceCh then
      if (parseQuantSpec rest).isSome then
        Except.error ("nothing to repeat".data)
      else Except.ok (RE.cset (CSet.one c), rest)
    else Except.ok (RE.cset (CSet.one c), rest)

/-- A concatenation: quantified atoms until the end of the input, a `|`
or a `)`; the parsed atoms are accumulated in order. -/
def parseSeqF (pAlt : Str → Except Str (RE × Str)) :
    Nat → Str → List RE → Except Str (List RE × Str)
  | 0, _, _ => Except.error ("pattern too deep".data)
  | _ + 1, [], acc => Except.ok (acc, [])
  | f + 1, c :: rest, acc =>
    if c = '|' ∨ c = ')' then Except.ok (acc, c :: rest)
    else
      exBind (parseAtomF pAlt (c :: rest)) (fun p =>
        exBind (parseQuants p.1 p.2) (fun p2 =>
          parseSeqF pAlt f p2.2 (acc ++ [p2.1])))

/-- An alternation: concatenations separated by `|`, associated to the
right as `re` tries them, left branch first. -/
def parseAltF : Nat → Str → Except Str (RE × Str)
  | 0, _ => Except.error ("pattern too deep".data)
  | f + 1, s =>
    exBind (parseSeqF (fun s2 => parseAltF f s2) (s.length + 1) s [])
      (fun p =>
        match p.2 with
        | [] => Except.ok (p.1.foldr RE.seq RE.eps, [])
        | c :: r2 =>
          if c = '|' then
            exBind (parseAltF f r2) (fun p2 =>
              Except.ok (RE.alt (p.1.foldr RE.seq RE.eps) p2.1, p2.2))
          else Except.ok (p.1.foldr RE.seq RE.eps, c :: r2))

/-- `re.compile` on the modelled fragment.  Anything left over can only
start with a stray `)`. -/
def compileRe (q : Str) : Except Str RE :=
  exBind (parseAltF (q.length + 1) q) (fun p =>
    match p.2 with
    | [] => Except.ok p.1
    | _ :: _ => Except.error ("unbalanced parenthesis".data))

/-- A character with no special meaning in a pattern (conservatively,
none of the `re` metacharacters and no backslash). -/
def plainCh (c : Char) : Bool :=
  !(c == bslashCh || c == '.' || c == '^' || c == '$' || c == '*' ||
    c == '+' || c == '?' || c == lbraceCh || c == rbraceCh || c == '[' ||
    c == ']' || c == '(' || c == ')' || c == '|')

/-- A plain literal query: non-empty and metacharacter-free, the case
for which the specification fixes substring-count semantics. -/
def plainPat (q : Str) : Bool := !q.isEmpty && q.all plainCh

/-- The pattern a literal string compiles to: its characters in
sequence. -/
def litRE (q : Str) : RE :=
  (q.map (fun c => RE.cset (CSet.one c))).foldr RE.seq RE.eps

/-- Size of a pattern, used to bound the matcher fuel. -/
def reSize : RE → Nat
  | RE.eps => 1
  | RE.cset _ => 1
  | RE.seq a b => reSize a + reSize b + 1
  | RE.alt a b => reSize a + reSize b + 1
  | RE.star a _ => reSize a + 1

/-- The backtracking matcher, in continuation style: `matchK fuel r s k`
tries every way `r` can match a prefix of `s` in Python priority order
(left alternative first, greedy star consuming first, lazy star skipping
first, an empty iteration of a star body ending the loop) and returns the
first success of the continuation `k` on the corresponding remainder.
The fuel only bounds the nesting depth, which is at most the pattern size
per position, so the bound chosen in `matchAt` is never hit. -/
def matchK : Nat → RE → Str → (Str → Option Str) → Option Str
  | 0, _, _, _ => none
  | _ + 1, RE.eps, s, k => k s
  | _ + 1, RE.cset _, [], _ => none
  | _ + 1, RE.cset t, c :: rest, k => if csetTest t c then k rest else none
  | f + 1, RE.seq a b, s, k => matchK f a s (fun s1 => matchK f b s1 k)
  | f + 1, RE.alt a b, s, k =>
    match matchK f a s k with
    | some r => some r
    | none => matchK f b s k
  | f + 1, RE.star a g, s, k =>
    if g then
      match matchK f a s (fun s1 =>
          if s1.length < s.length then matchK f (RE.star a g) s1 k
          else none) with
      | some r => some r
      | none => k s
    else
      match k s with
      | some r => some r
      | none =>
        matchK f a s (fun s1 =>
          if s1.length < s.length then matchK f (RE.star a g) s1 k
          else none)

/-- The first match of `r` at the start of `s`, as the number of
characters it consumes (`re.match` at one position). -/
def matchAt (r : RE) (s : Str) : Option Nat :=
  (matchK ((reSize r + 1) * (s.length + 2)) r s some).map
    (fun rem => s.length - rem.length)

/-- The first non-empty match of `r` at the start of `s`: the scanner of
`findall` retries a position that produced an empty match demanding a
non-empty one before moving on (the `must_advance` flag of the `re`
scanner). -/
def matchAtNE (r : RE) (s : Str) : Option Nat :=
  (matchK ((reSize r + 1) * (s.length + 2)) r s
      (fun rem => if rem.length < s.length then some rem else none)).map
    (fun rem => s.length - rem.length)

/-- The scan of `findall`: at each position take the match found there,
if any, count it and resume after it.  An empty match is counted and the
same position is retried demanding a non-empty match (counted too when it
exists) before the scan moves one character on; positions with no match
are skipped.  The final position of the string is scanned too. -/
def reCountAux (r : RE) : Nat → Str → Nat
  | 0, _ => 0
  | _ + 1, [] => if (matchAt r []).isSome then 1 else 0
  | f + 1, c :: rest =>
    (matchAt r (c :: rest)).elim (reCountAux r f rest)
      (fun L =>
        if L = 0 then
          (matchAtNE r (c :: rest)).elim (1 + reCountAux r f rest)
            (fun L2 => 2 + reCountAux r f (List.drop L2 (c :: rest)))
        else 1 + reCountAux r f (List.drop L (c :: rest)))

/-- `len(regex.findall(s))`, which is what `series.str.count` computes
per cell. -/
def reCount (r : RE) (s : Str) : Nat := reCountAux r (s.length + 1) s

/-- `len(re.findall(pat, s))` for a compiling pattern.  The 0 of the
error branch is never exercised by `search_keys`, which propagates the
`re.error` of a non-compiling query before any counting (see
`tallyAll`). -/
def pyCount (pat s : Str) : Nat :=
  match compileRe pat with
  | Except.ok r => reCount r s
  | Except.error _ => 0

/-- `series.str.lower().str.count(query)` on one cell (lines 192-193):
lower-case the transcript text and count the matches of the query
pattern; a non-string cell (NaN, or a number) yields NaN.  For a plain
literal query this equals the non-overlapping substring count of the
query in the lowered text (`lowerCountCell_plain`). -/
def lowerCountCell (q : Str) (c : Cell) : Cell :=
  match c with
  | Cell.str s => Cell.num ((pyCount q (asciiLower s) : Int))
  | _ => Cell.blank

/-- Lines 189-191: walk the keyword table row by row, cell by cell, keeping
every cell that holds a string (`isinstance(query, str)`), in order. -/
def extractQueries (keyRows : List (List Cell)) : List Str :=
  keyRows.flatMap (fun row => row.filterMap (fun c =>
    match c with
    | Cell.str s => some s
    | _ => none))

/-- Lines 192-193 for one query: add the `P_<query>` column computed from
the current `P_transcript` column, then the `C_<query>` column computed
from the current `C_transcript` column. -/
def addQueryCols (t : DynTable) (q : Str) : DynTable :=
  let t1 := setCol t (("P_".data) ++ q)
    ((getCol t ("P_transcript".data)).map (lowerCountCell q))
  setCol t1 (("C_".data) ++ q)
    ((getCol t1 ("C_transcript".data)).map (lowerCountCell q))

def fillCell : Cell → Cell
  | Cell.blank => Cell.num 0
  | c => c

/-- `df.fillna(0)` (line 194): every NaN cell of the schema becomes 0. -/
def fillZero (t : DynTable) : DynTable :=
  ⟨t.cols, t.rows.map (fun row => t.cols.map (fun c => (c, fillCell (getCell row c))))⟩

/-- Lines 189-193 over the discovered queries in order: `str.count`
compiles each query, so a query `re.compile` rejects raises `re.error`
before that query's columns are written and aborts the run; a compiling
query adds its two count columns. -/
def tallyAll : List Str → DynTable → Except Str DynTable
  | [], t => Except.ok t
  | q :: qs, t => exBind (compileRe q) (fun _ => tallyAll qs (addQueryCols t q))

/-- `search_keys` (lines 176-196): fail unless both transcript columns are
present (lines 181-184, checked before the keyword file is read), then add
the two count columns for every discovered query in order, propagating the
`re.error` of a non-compiling query, then fill the NaN cells with 0.  The
final `to_csv` is I/O and out of scope. -/
def search_keys (t : DynTable) (keyRows : List (List Cell)) : Except Str DynTable :=
  if ("P_transcript".data) ∈ t.cols then
    if ("C_transcript".data) ∈ t.cols then
      exBind (tallyAll (extractQueries keyRows) t)
        (fun u => Except.ok (fillZero u))
    else Except.error ("Invalid setUpFile: missing column C_transcript".data)
  else Except.error ("Invalid setUpFile: missing column P_transcript".data)

/-! ### Cell typing of the external CSV reader

Modelled from the spec: the keyword source and the reloaded checkpoint are
read by the external CSV layer (`pandas.read_csv`, an out-of-scope
collaborator), which types each textual cell: empty cells and NA tokens
become NaN, numeric literals become numbers, and everything else stays
text.  The numeric value of a non-integer literal is approximated by its
integer part, which is never observable downstream: numeric cells are
skipped as queries and yield NaN under the `.str` accessor. -/
def isBlankCh (c : Char) : Bool := c = ' ' || c = '\t'

def trimBlanks (s : Str) : Str :=
  ((s.dropWhile isBlankCh).reverse.dropWhile isBlankCh).reverse

/-- Characters that can occur in a numeric literal. -/
def numChar (c : Char) : Bool :=
  isDigitCh c || c = '+' || c = '-' || c = '.' || c = 'e' || c = 'E'

/-- Shape of a numeric literal: optional sign, digits with an optional
fractional part (at least one digit overall), optional exponent. -/
def shapeNum (t : Str) : Bool :=
  let t1 : Str := match t with
    | c :: r => if c = '+' ∨ c = '-' then r else t
    | [] => t
  let ip := t1.takeWhile isDigitCh
  let r1 := t1.dropWhile isDigitCh
  let fp : Str := match r1 with
    | '.' :: r => r.takeWhile isDigitCh
    | _ => []
  let r2 : Str := match r1 with
    | '.' :: r => r.dropWhile isDigitCh
    | _ => r1
  if ip.isEmpty && fp.isEmpty then false
  else
    match r2 with
    | [] => true
    | e :: r3 =>
      if e = 'e' ∨ e = 'E' then
        let r4 : Str := match r3 with
          | c :: r => if c = '+' ∨ c = '-' then r else r3
          | [] => r3
        !r4.isEmpty && r4.all isDigitCh
      else false

/-- Whether the CSV reader parses the cell as a number.  The explicit
character-class conjunct is implied by the shape check and stated for
direct use in proofs. -/
def numLike (s : Str) : Bool :=
  !(trimBlanks s).isEmpty && (trimBlanks s).all numChar && shapeNum (trimBlanks s)

/-- The default NA tokens of the CSV reader. -/
def naLike (s : Str) : Bool :=
  s ∈ [("#N/A".data), ("#N/A N/A".data), ("#NA".data), ("-1.#IND".data),
       ("-1.#QNAN".data), ("-NaN".data), ("-nan".data), ("1.#IND".data),
       ("1.#QNAN".data), ("<NA>".data), ("N/A".data), ("NA".data),
       ("NULL".data), ("NaN".data), ("None".data), ("n/a".data),
       ("nan".data), ("null".data)]


/-- Numeric value of a number-shaped literal (integer part only; see the
section comment). -/
def parseIntVal (s : Str) : Int :=
  match trimBlanks s with
  | '-' :: r => - ((digitsVal (r.takeWhile isDigitCh) : Int))
  | '+' :: r => ((digitsVal (r.takeWhile isDigitCh) : Int))
  | t => ((digitsVal (t.takeWhile isDigitCh) : Int))

/-- The type given to one raw CSV cell by the external reader. -/
def typeCell (raw : Str) : Cell :=
  if raw.isEmpty || naLike raw then Cell.blank
  else if numLike raw then Cell.num (parseIntVal raw)
  else Cell.str raw

/-- A whole raw CSV grid, typed. -/
def typeCsv (rawRows : List (List Str)) : List (List Cell) :=
  rawRows.map (fun row => row.map typeCell)

/-! ### Round-trip through the persisted CSV (C8)

The counts computed by `search_keys` depend only on the transcript columns.
The danger in a save/reload cycle is the CSV reader's type inference: a
transcript whose text looked like a number would come back numeric and
count as NaN.  The parser makes that impossible: the first paragraph ever
appended to a transcript cell either contains a page marker (hence `[`) or
starts with a speaker tag (hence `p`/`P`/`c`/`C`), and none of those
characters can occur in a numeric literal or NA token. -/
/-- Characters that protect a transcript from numeric re-typing:
`[` (91), `p` (112), `P` (80), `c` (99), `C` (67). -/
def goodCh (c : Char) : Bool :=
  c.toNat = 91 || c.toNat = 112 || c.toNat = 80 || c.toNat = 99 || c.toNat = 67

/-- A string containing at least one protected character. -/
def GoodStr (s : Str) : Prop := ∃ c ∈ s, goodCh c = true

/-- Both transcript cells of a row are NaN or protected strings. -/
def RowTransOk (r : Row) : Prop :=
  (∀ s, r.P_transcript = some s → GoodStr s) ∧
  (∀ s, r.C_transcript = some s → GoodStr s)

def TranscriptsOk (tbl : Table) : Prop := ∀ p ∈ tbl, RowTransOk p.2

/-- Once a speaker and a row are simultaneously active, that speaker's
transcript cell of that row has been initialized (the activating paragraph
itself was appended). -/
def StateOk (st : ParseState) (tbl : Table) : Prop :=
  (∀ i, st.currSpeaker = some parenTag → st.currIndex = some i →
    (getRow tbl i).P_transcript ≠ none) ∧
  (∀ i, st.currSpeaker = some childTag → st.currIndex = some i →
    (getRow tbl i).C_transcript ≠ none)

def rawOfOptStr : Option Str → Str
  | none => []
  | some s => s

def intToRaw (n : Int) : Str :=
  if n < 0 then '-' :: Nat.toDigits 10 ((-n).toNat) else Nat.toDigits 10 n.toNat

def rawOfOptInt : Option Int → Str
  | none => []
  | some n => intToRaw n

/-- Modelled from the spec: the persisted form of one row, as written by
`to_csv(index=True, index_label='Participant_ID')` (line 107 / 196) —
the row index followed by the six columns, NaN as an empty field, text
verbatim (the comma/quote escaping of the CSV layer is lossless and
omitted). -/
def savedRow (k : Str) (r : Row) : List (Str × Str) :=
  [(("Participant_ID".data), k),
   (("ID".data), rawOfOptStr r.ID),
   (("PageNum".data), rawOfOptStr r.PageNum),
   (("P_transcript".data), rawOfOptStr r.P_transcript),
   (("C_transcript".data), rawOfOptStr r.C_transcript),
   (("P_WordCount".data), rawOfOptInt r.P_WordCount),
   (("C_WordCount".data), rawOfOptInt r.C_WordCount)]

def loadCols : List Str :=
  [("Participant_ID".data), ("ID".data), ("PageNum".data),
   ("P_transcript".data), ("C_transcript".data), ("P_WordCount".data),
   ("C_WordCount".data)]

/-- Modelled from the spec: reloading the persisted table as a checkpoint
(`pd.read_csv(setUpFile)`, line 89): the former index becomes a regular
`Participant_ID` column and every cell is re-typed by the reader. -/
def loadTable (t : Table) : DynTable :=
  ⟨loadCols,
   t.map (fun p => (savedRow p.1 p.2).map (fun q => (q.1, typeCell q.2)))⟩

def cellOfOptStr : Option Str → Cell
  | none => Cell.blank
  | some s => Cell.str s

def cellOfOptInt : Option Int → Cell
  | none => Cell.blank
  | some n => Cell.num n

def dynCols : List Str :=
  [("ID".data), ("PageNum".data), ("P_transcript".data), ("C_transcript".data),
   ("P_WordCount".data), ("C_WordCount".data)]

/-- The in-memory `df_counts` right after parsing, viewed as the dynamic
table that `search_keys` operates on (no round trip). -/
def asDyn (t : Table) : DynTable :=
  ⟨dynCols,
   t.map (fun p =>
     [(("ID".data), cellOfOptStr p.2.ID),
      (("PageNum".data), cellOfOptStr p.2.PageNum),
      (("P_transcript".data), cellOfOptStr p.2.P_transcript),
      (("C_transcript".data), cellOfOptStr p.2.C_transcript),
      (("P_WordCount".data), cellOfOptInt p.2.P_WordCount),
      (("C_WordCount".data), cellOfOptInt p.2.C_WordCount)])⟩

/-- The columns whose cells the round trip may re-type (the index column
only exists after a reload; `ID`/`PageNum` text may look numeric; the word
counts come back as parsed numbers).  None of them is ever read when
computing keyword counts. -/
def retypedCols : List Str :=
  [("Participant_ID".data), ("ID".data), ("PageNum".data),
   ("P_WordCount".data), ("C_WordCount".data)]

/-- Agreement of two tables outside a set of excusable columns. -/
def Agree (bad : Str → Prop) (t1 t2 : DynTable) : Prop :=
  t1.rows.length = t2.rows.length ∧
  (∀ c, ¬ bad c → (c ∈ t1.cols ↔ c ∈ t2.cols)) ∧
  (∀ c, ¬ bad c → getCol t1 c = getCol t2 c)

def exDocs : List (Str × List Str) :=
  [(("a.docx".data), [("Parent: hi".data), ("[Page 1] one happy day".data)])]

def exKeys : List (List Cell) := [[Cell.str ("happy".data)]]

def exLoadedRun : DynTable :=
  (search_keys (loadTable (setUpTable exDocs)) exKeys).toOption.getD ⟨[], []⟩

def exDirectRun : DynTable :=
  (search_keys (asDyn (setUpTable exDocs)) exKeys).toOption.getD ⟨[], []⟩

/-! ### Basic lemmas about the table operations -/
theorem lookupRow_updateRows_self (t : Table) (k : Str) (f : Row → Row) :
    lookupRow (updateRows t k f) k = some (f (getRow t k)) := by
  induction t with
  | nil => simp [updateRows, lookupRow, getRow]
  | cons p rest ih =>
    obtain ⟨k0, r⟩ := p
    by_cases h : k0 = k
    · subst h
      simp [updateRows, lookupRow, getRow]
    · simp [updateRows, lookupRow, getRow, h] at ih ⊢
      exact ih

theorem lookupRow_updateRows_ne (t : Table) {k k' : Str} (h : k' ≠ k)
    (f : Row → Row) : lookupRow (updateRows t k f) k' = lookupRow t k' := by
  induction t with
  | nil => simp [updateRows, lookupRow, Ne.symm h]
  | cons p rest ih =>
    obtain ⟨k0, r⟩ := p
    by_cases h0 : k0 = k
    · subst h0
      have hne : ¬ (k0 = k') := fun hh => h (hh.symm)
      simp [updateRows, lookupRow, hne]
    · simp only [updateRows, if_neg h0, lookupRow]
      by_cases h1 : k0 = k'
      · simp [h1]
      · simp [h1, ih]

theorem getRow_updateRows_self (t : Table) (k : Str) (f : Row → Row) :
    getRow (updateRows t k f) k = f (getRow t k) := by
  simp [getRow, lookupRow_updateRows_self]

theorem getRow_updateRows_ne (t : Table) {k k' : Str} (h : k' ≠ k)
    (f : Row → Row) : getRow (updateRows t k f) k' = getRow t k' := by
  simp [getRow, lookupRow_updateRows_ne t h]

theorem tableKeys_updateRows (t : Table) (k : Str) (f : Row → Row) :
    tableKeys (updateRows t k f)
      = if k ∈ tableKeys t then tableKeys t else tableKeys t ++ [k] := by
  induction t with
  | nil => simp [updateRows, tableKeys]
  | cons p rest ih =>
    obtain ⟨k0, r⟩ := p
    by_cases h : k0 = k
    · subst h
      simp [updateRows, tableKeys]
    · have hne : ¬ (k = k0) := fun hh => h (hh.symm)
      simp only [updateRows, if_neg h, tableKeys, List.map_cons] at ih ⊢
      rw [ih]
      by_cases hm : k ∈ List.map Prod.fst rest
      · simp [hm, hne]
      · simp [hm, hne]

theorem mem_keys_iff_lookup (t : Table) (k : Str) :
    k ∈ tableKeys t ↔ (lookupRow t k).isSome := by
  induction t with
  | nil => simp [tableKeys, lookupRow]
  | cons p rest ih =>
    obtain ⟨k0, r⟩ := p
    simp only [tableKeys, List.map_cons, List.mem_cons]
    by_cases h : k0 = k
    · subst h
      simp [lookupRow]
    · have hne : ¬ (k = k0) := fun hh => h (hh.symm)
      rw [lookupRow, if_neg h]
      simp only [tableKeys] at ih
      constructor
      · intro hk
        rcases hk with hk | hk
        · exact absurd hk hne
        · exact ih.mp hk
      · intro hk
        exact Or.inr (ih.mpr hk)

theorem updateRows_forall {Q : Row → Prop} {t : Table} {k : Str} {f : Row → Row}
    (h1 : ∀ p ∈ t, Q p.2) (h2 : ∀ r, Q r → Q (f r)) (h3 : Q emptyRow) :
    ∀ p ∈ updateRows t k f, Q p.2 := by
  induction t with
  | nil =>
    intro p hp
    simp only [updateRows, List.mem_singleton] at hp
    subst hp
    exact h2 _ h3
  | cons q rest ih =>
    obtain ⟨k0, r⟩ := q
    intro p hp
    by_cases h : k0 = k
    · subst h
      simp only [updateRows, if_pos rfl] at hp
      rcases List.mem_cons.mp hp with hp | hp
      · subst hp
        exact h2 _ (h1 (k0, r) (List.mem_cons_self _ _))
      · exact h1 p (List.mem_cons_of_mem _ hp)
    · simp only [updateRows, if_neg h] at hp
      rcases List.mem_cons.mp hp with hp | hp
      · subst hp
        exact h1 (k0, r) (List.mem_cons_self _ _)
      · exact ih (fun q hq => h1 q (List.mem_cons_of_mem _ hq)) p hp

theorem pageAt_label {s lbl : Str} {n : Nat} (h : pageAt s = some (lbl, n)) :
    DigitHead lbl := by
  unfold pageAt at h
  split at h
  case h_1 p rest =>
    split at h
    case isTrue =>
      by_cases hd : rest.takeWhile isDigitCh = []
      · simp only [if_pos hd] at h
        exact absurd h (by simp)
      · simp only [if_neg hd] at h
        split at h
        next r4 heq =>
          have h1 : rest.takeWhile isDigitCh ++
              (rest.dropWhile isDigitCh).takeWhile (fun c => c = '-') ++
              ((rest.dropWhile isDigitCh).dropWhile (fun c => c = '-')).takeWhile isWordCh
              = lbl := by
            have h2 := h
            rw [Option.some.injEq, Prod.mk.injEq] at h2
            exact h2.1
          obtain ⟨c, cs, hcs⟩ : ∃ c cs, rest.takeWhile isDigitCh = c :: cs := by
            cases hne : rest.takeWhile isDigitCh with
            | nil => exact absurd hne hd
            | cons c cs => exact ⟨c, cs, rfl⟩
          refine ⟨c, cs ++ (rest.dropWhile isDigitCh).takeWhile (fun c => c = '-') ++
              ((rest.dropWhile isDigitCh).dropWhile (fun c => c = '-')).takeWhile isWordCh,
              ?_, ?_⟩
          · rw [← h1, hcs]
            simp
          · exact List.mem_takeWhile_imp (l := rest) (p := isDigitCh)
              (by rw [hcs]; exact List.mem_cons_self _ _)
        next => exact absurd h (by simp)
    case isFalse => exact absurd h (by simp)
  case h_2 => exact absurd h (by simp)

theorem searchPage_label {s lbl : Str} (h : searchPage s = some lbl) :
    DigitHead lbl := by
  induction s with
  | nil => exact absurd h (by simp [searchPage])
  | cons c rest ih =>
    rw [searchPage] at h
    cases hp : pageAt (c :: rest) with
    | some v =>
      obtain ⟨l, n⟩ := v
      rw [hp] at h
      simp at h
      subst h
      exact pageAt_label hp
    | none =>
      rw [hp] at h
      exact ih h

theorem digitHead_lower_ne_stop {lbl : Str} (h : DigitHead lbl) :
    asciiLower lbl ≠ ("stop".data) := by
  obtain ⟨c, cs, hcs, hdig⟩ := h
  subst hcs
  intro heq
  have hs : ("stop".data) = 's' :: ("top".data) := by decide
  rw [hs] at heq
  simp only [asciiLower, List.map_cons, List.cons.injEq] at heq
  have hc : lowerCh c = 's' := heq.1
  have hle : c.toNat ≤ 57 := by
    simp only [isDigitCh, Bool.and_eq_true, decide_eq_true_eq] at hdig
    exact hdig.2
  unfold lowerCh at hc
  split at hc
  · omega
  · have : c.toNat = 115 := by
      rw [hc] at hle ⊢
      rfl
    omega

theorem pageNumOk_emptyRow : PageNumOk emptyRow := by
  intro l hl
  simp [emptyRow] at hl

theorem transcriptStep_forall {Q : Row → Prop} {sp : Option Str} {idx : Str}
    {tbl : Table} {text : Str} (hT : ∀ p ∈ tbl, Q p.2)
    (hP : ∀ r, Q r →
      Q { r with P_transcript := some ((r.P_transcript.getD []) ++ ' ' :: text) })
    (hC : ∀ r, Q r →
      Q { r with C_transcript := some ((r.C_transcript.getD []) ++ ' ' :: text) })
    (hE : Q emptyRow) :
    ∀ p ∈ transcriptStep sp idx tbl text, Q p.2 := by
  unfold transcriptStep
  split
  · exact updateRows_forall hT hP hE
  · split
    · exact updateRows_forall hT hC hE
    · exact hT

theorem initWcStep_forall {Q : Row → Prop} {idx : Str} {tbl : Table}
    (hT : ∀ p ∈ tbl, Q p.2)
    (hI : ∀ r, Q r → Q { r with P_WordCount := some (r.P_WordCount.getD 0),
                                C_WordCount := some (r.C_WordCount.getD 0) })
    (hE : Q emptyRow) :
    ∀ p ∈ initWcStep idx tbl, Q p.2 :=
  updateRows_forall hT hI hE

theorem wcStep_forall {Q : Row → Prop} {sp : Option Str} {idx : Str}
    {tbl : Table} {text : Str} (hT : ∀ p ∈ tbl, Q p.2)
    (hP : ∀ r, Q r →
      Q { r with P_WordCount := some (r.P_WordCount.getD 0 + netWords text) })
    (hC : ∀ r, Q r →
      Q { r with C_WordCount := some (r.C_WordCount.getD 0 + netWords text) })
    (hE : Q emptyRow) :
    ∀ p ∈ wcStep sp idx tbl text, Q p.2 := by
  unfold wcStep
  split
  · exact updateRows_forall hT hP hE
  · split
    · exact updateRows_forall hT hC hE
    · exact hT

theorem pageStep_forall {Q : Row → Prop} {doc : Str} {st : ParseState}
    {tbl : Table} {text : Str} (hT : ∀ p ∈ tbl, Q p.2)
    (hM : ∀ lbl, searchPage text = some lbl →
      ∀ r, Q r → Q { r with ID := some doc, PageNum := some lbl })
    (hE : Q emptyRow) :
    ∀ p ∈ (pageStep doc st tbl text).2, Q p.2 := by
  unfold pageStep
  cases hsp : searchPage text with
  | some lbl =>
    simp only [stopCheck, if_neg Bool.false_ne_true]
    exact updateRows_forall hT (hM lbl hsp) hE
  | none => exact hT

theorem updatePara_forall {Q : Row → Prop} {doc : Str} {acc : ParseState × Table}
    {text : Str} (hT : ∀ p ∈ acc.2, Q p.2)
    (hM : ∀ lbl, searchPage text = some lbl →
      ∀ r, Q r → Q { r with ID := some doc, PageNum := some lbl })
    (hPt : ∀ r, Q r →
      Q { r with P_transcript := some ((r.P_transcript.getD []) ++ ' ' :: text) })
    (hCt : ∀ r, Q r →
      Q { r with C_transcript := some ((r.C_transcript.getD []) ++ ' ' :: text) })
    (hI : ∀ r, Q r → Q { r with P_WordCount := some (r.P_WordCount.getD 0),
                                C_WordCount := some (r.C_WordCount.getD 0) })
    (hPw : ∀ r, Q r →
      Q { r with P_WordCount := some (r.P_WordCount.getD 0 + netWords text) })
    (hCw : ∀ r, Q r →
      Q { r with C_WordCount := some (r.C_WordCount.getD 0 + netWords text) })
    (hE : Q emptyRow) :
    ∀ p ∈ (updatePara doc acc text).2, Q p.2 := by
  unfold updatePara
  split
  · exact hT
  · have hT2 := @pageStep_forall Q doc (speakerStep acc.1 text) acc.2 text hT hM hE
    dsimp only
    split
    · exact hT2
    · exact wcStep_forall (initWcStep_forall (transcriptStep_forall hT2 hPt hCt hE) hI hE)
        hPw hCw hE

theorem foldl_updatePara_forall {Q : Row → Prop} {doc : Str}
    {paras : List Str} {acc : ParseState × Table} (hT : ∀ p ∈ acc.2, Q p.2)
    (hM : ∀ text lbl, searchPage text = some lbl →
      ∀ r, Q r → Q { r with ID := some doc, PageNum := some lbl })
    (hPt : ∀ text (r : Row), Q r →
      Q { r with P_transcript := some ((r.P_transcript.getD []) ++ ' ' :: text) })
    (hCt : ∀ text (r : Row), Q r →
      Q { r with C_transcript := some ((r.C_transcript.getD []) ++ ' ' :: text) })
    (hI : ∀ r, Q r → Q { r with P_WordCount := some (r.P_WordCount.getD 0),
                                C_WordCount := some (r.C_WordCount.getD 0) })
    (hPw : ∀ text (r : Row), Q r →
      Q { r with P_WordCount := some (r.P_WordCount.getD 0 + netWords text) })
    (hCw : ∀ text (r : Row), Q r →
      Q { r with C_WordCount := some (r.C_WordCount.getD 0 + netWords text) })
    (hE : Q emptyRow) :
    ∀ p ∈ (paras.foldl (updatePara doc) acc).2, Q p.2 := by
  induction paras generalizing acc with
  | nil => exact hT
  | cons text rest ih =>
    exact ih (updatePara_forall hT (hM text) (hPt text) (hCt text) hI (hPw text)
      (hCw text) hE)

/-- Every row of a parsed table has a `PageNum` that begins with a digit. -/
theorem updateWordCount_pageNumOk {doc : Str} {paras : List Str} {tbl : Table}
    (hT : ∀ p ∈ tbl, PageNumOk p.2) :
    ∀ p ∈ updateWordCount doc paras tbl, PageNumOk p.2 := by
  unfold updateWordCount
  refine foldl_updatePara_forall hT ?_ ?_ ?_ ?_ ?_ ?_ pageNumOk_emptyRow
  · intro text lbl hsp r hr l hl
    simp at hl
    subst hl
    exact searchPage_label hsp
  · intro text r hr l hl
    exact hr l hl
  · intro text r hr l hl
    exact hr l hl
  · intro r hr l hl
    exact hr l hl
  · intro text r hr l hl
    exact hr l hl
  · intro text r hr l hl
    exact hr l hl

/-- C1: For every document parsed by `_updateWordCount`, a page-marker label
that case-insensitively equals "stop" never occurs — the capture group
`\d+-*\w*` forces every label to begin with a digit — so the claim's
conditional ("on a stop label, emit a diagnostic and do not create/update a
row") holds vacuously, and its consequence is proved directly: every row of
a parsed table has a `PageNum` whose lower-casing differs from "stop", and
parsing is a total fold that simply continues on the previous state. -/
theorem c1_stop_pages_never_in_table :
    (∀ text lbl : Str, searchPage text = some lbl →
      asciiLower lbl ≠ ("stop".data)) ∧
    (∀ (doc : Str) (paras : List Str) (p : Str × Row),
      p ∈ updateWordCount doc paras [] →
      ∀ l, p.2.PageNum = some l → asciiLower l ≠ ("stop".data)) := by
  constructor
  · intro text lbl h
    exact digitHead_lower_ne_stop (searchPage_label h)
  · intro doc paras p hp l hl
    have hEmpty : ∀ q ∈ ([] : Table), PageNumOk q.2 := by
      intro q hq
      exact absurd hq (List.not_mem_nil q)
    exact digitHead_lower_ne_stop (updateWordCount_pageNumOk hEmpty p hp l hl)

/-- Witness for C1 at a concrete document. -/
theorem c1_stop_pages_never_in_table_witness :
    asciiLower ("3".data) ≠ ("stop".data) ∧
    asciiLower ("1".data) ≠ ("stop".data) :=
  ⟨c1_stop_pages_never_in_table.1 ("[Page 3] x".data) ("3".data) (by decide),
   c1_stop_pages_never_in_table.2 ("d".data) [("[Page 1]".data)]
     (("d-Page-1".data),
      ⟨some ("d".data), some ("1".data), none, none, some 0, some 0⟩)
     (by decide) ("1".data) rfl⟩

theorem mem_insertNew {ks : List Str} {k x : Str} :
    x ∈ insertNew ks k ↔ x ∈ ks ∨ x = k := by
  unfold insertNew
  by_cases h : k ∈ ks
  · simp only [if_pos h]
    constructor
    · exact Or.inl
    · intro hx
      rcases hx with hx | hx
      · exact hx
      · rw [hx]; exact h
  · simp [if_neg h]

theorem insertNew_nodup {ks : List Str} {k : Str} (h : ks.Nodup) :
    (insertNew ks k).Nodup := by
  unfold insertNew
  by_cases hm : k ∈ ks
  · simpa [if_pos hm] using h
  · rw [if_neg hm, ← List.concat_eq_append]
    exact List.Nodup.concat hm h

theorem tableKeys_updateRows_mem {t : Table} {k : Str} (f : Row → Row)
    (h : k ∈ tableKeys t) : tableKeys (updateRows t k f) = tableKeys t := by
  rw [tableKeys_updateRows, if_pos h]

theorem tableKeys_transcriptStep {sp : Option Str} {idx : Str} {tbl : Table}
    {text : Str} (h : idx ∈ tableKeys tbl) :
    tableKeys (transcriptStep sp idx tbl text) = tableKeys tbl := by
  unfold transcriptStep
  split
  · exact tableKeys_updateRows_mem _ h
  · split
    · exact tableKeys_updateRows_mem _ h
    · rfl

theorem tableKeys_initWcStep {idx : Str} {tbl : Table}
    (h : idx ∈ tableKeys tbl) : tableKeys (initWcStep idx tbl) = tableKeys tbl :=
  tableKeys_updateRows_mem _ h

theorem tableKeys_wcStep {sp : Option Str} {idx : Str} {tbl : Table}
    {text : Str} (h : idx ∈ tableKeys tbl) :
    tableKeys (wcStep sp idx tbl text) = tableKeys tbl := by
  unfold wcStep
  split
  · exact tableKeys_updateRows_mem _ h
  · split
    · exact tableKeys_updateRows_mem _ h
    · rfl

theorem tableKeys_accumBlock {sp : Option Str} {idx : Str} {tbl : Table}
    {text : Str} (h : idx ∈ tableKeys tbl) :
    tableKeys (wcStep sp idx (initWcStep idx (transcriptStep sp idx tbl text)) text)
      = tableKeys tbl := by
  have e1 : tableKeys (transcriptStep sp idx tbl text) = tableKeys tbl :=
    tableKeys_transcriptStep h
  have h1 : idx ∈ tableKeys (transcriptStep sp idx tbl text) := by
    rw [e1]
    exact h
  have e2 : tableKeys (initWcStep idx (transcriptStep sp idx tbl text))
      = tableKeys (transcriptStep sp idx tbl text) := tableKeys_initWcStep h1
  have h2 : idx ∈ tableKeys (initWcStep idx (transcriptStep sp idx tbl text)) := by
    rw [e2]
    exact h1
  rw [tableKeys_wcStep h2, e2, e1]

/-- The key list after one paragraph, together with preservation of the
invariant that the current row index is present in the table. -/
theorem updatePara_keys {doc : Str} {acc : ParseState × Table} {text : Str}
    (hInv : ∀ i, acc.1.currIndex = some i → i ∈ tableKeys acc.2) :
    tableKeys (updatePara doc acc text).2
      = (match searchPage text with
         | some lbl => insertNew (tableKeys acc.2) (rowIndexOf doc lbl)
         | none => tableKeys acc.2) ∧
    (∀ i, (updatePara doc acc text).1.currIndex = some i →
      i ∈ tableKeys (updatePara doc acc text).2) := by
  obtain ⟨st, tbl⟩ := acc
  by_cases h0 : text = []
  · subst h0
    simp only [updatePara, if_pos rfl]
    exact ⟨rfl, hInv⟩
  · simp only [updatePara, if_neg h0]
    cases hsp : searchPage text with
    | some lbl =>
      have hpair : pageStep doc (speakerStep st text) tbl text
          = ({ currIndex := some (rowIndexOf doc lbl), currPage := some lbl,
               currSpeaker := (speakerStep st text).currSpeaker },
             updateRows tbl (rowIndexOf doc lbl)
               (fun r => { r with ID := some doc, PageNum := some lbl })) := by
        unfold pageStep
        rw [hsp]
        simp [stopCheck]
      rw [hpair]
      have hkeys2 : tableKeys (updateRows tbl (rowIndexOf doc lbl)
          (fun r => { r with ID := some doc, PageNum := some lbl }))
          = insertNew (tableKeys tbl) (rowIndexOf doc lbl) := by
        rw [tableKeys_updateRows]
        rfl
      have hmem : rowIndexOf doc lbl ∈ tableKeys (updateRows tbl (rowIndexOf doc lbl)
          (fun r => { r with ID := some doc, PageNum := some lbl })) := by
        rw [hkeys2]
        exact mem_insertNew.mpr (Or.inr rfl)
      dsimp only
      rw [tableKeys_accumBlock hmem, hkeys2]
      refine ⟨rfl, ?_⟩
      intro i hi
      simp only [Option.some.injEq] at hi
      subst hi
      exact mem_insertNew.mpr (Or.inr rfl)
    | none =>
      have hpair : pageStep doc (speakerStep st text) tbl text
          = (speakerStep st text, tbl) := by
        unfold pageStep
        rw [hsp]
      rw [hpair]
      have hsame : (speakerStep st text).currSpeaker = (speakerStep st text).currSpeaker := rfl
      have hidx : (speakerStep st text).currIndex = st.currIndex := by
        unfold speakerStep
        split <;> rfl
      cases hci : st.currIndex with
      | none =>
        rw [hidx, hci]
        refine ⟨rfl, ?_⟩
        intro i hi
        rw [hidx, hci] at hi
        cases hi
      | some idx =>
        have hmem : idx ∈ tableKeys tbl := hInv idx hci
        rw [hidx, hci]
        dsimp only
        rw [tableKeys_accumBlock hmem]
        refine ⟨rfl, ?_⟩
        intro i hi
        rw [hidx, hci] at hi
        simp only [Option.some.injEq] at hi
        subst hi
        exact hmem

theorem foldl_updatePara_keys {doc : Str} (paras : List Str)
    (acc : ParseState × Table)
    (hInv : ∀ i, acc.1.currIndex = some i → i ∈ tableKeys acc.2) :
    tableKeys (paras.foldl (updatePara doc) acc).2
      = List.foldl insertNew (tableKeys acc.2)
          ((paras.filterMap searchPage).map (rowIndexOf doc)) := by
  induction paras generalizing acc with
  | nil => rfl
  | cons text rest ih =>
    have hk := @updatePara_keys doc acc text hInv
    rw [List.foldl_cons]
    rw [ih _ hk.2]
    cases hsp : searchPage text with
    | some lbl =>
      rw [hsp] at hk
      simp only [List.filterMap_cons, hsp, List.map_cons, List.foldl_cons]
      rw [hk.1]
    | none =>
      rw [hsp] at hk
      simp only [List.filterMap_cons, hsp]
      rw [hk.1]

theorem tableKeys_updateWordCount (doc : Str) (paras : List Str) (tbl : Table) :
    tableKeys (updateWordCount doc paras tbl)
      = List.foldl insertNew (tableKeys tbl)
          ((pageLabels paras).map (rowIndexOf doc)) := by
  unfold updateWordCount pageLabels
  exact foldl_updatePara_keys paras (⟨none, none, none⟩, tbl)
    (by intro i hi; cases hi)

theorem foldl_insertNew_nodup {l : List Str} {ks : List Str} (h : ks.Nodup) :
    (List.foldl insertNew ks l).Nodup := by
  induction l generalizing ks with
  | nil => exact h
  | cons a t ih => exact ih (insertNew_nodup h)

theorem mem_foldl_insertNew {l : List Str} {ks : List Str} {x : Str} :
    x ∈ List.foldl insertNew ks l ↔ x ∈ ks ∨ x ∈ l := by
  induction l generalizing ks with
  | nil => simp
  | cons a t ih =>
    rw [List.foldl_cons, ih]
    rw [mem_insertNew]
    constructor
    · intro hx
      rcases hx with (hx | hx) | hx
      · exact Or.inl hx
      · exact Or.inr (by rw [hx]; exact List.mem_cons_self _ _)
      · exact Or.inr (List.mem_cons_of_mem _ hx)
    · intro hx
      rcases hx with hx | hx
      · exact Or.inl (Or.inl hx)
      · rcases List.mem_cons.mp hx with hx | hx
        · exact Or.inl (Or.inr hx)
        · exact Or.inr hx

theorem foldl_insertNew_length (l : List Str) :
    (List.foldl insertNew [] l).length = l.dedup.length := by
  have h1 : (List.foldl insertNew [] l).Nodup := foldl_insertNew_nodup List.nodup_nil
  have h2 : l.dedup.Nodup := List.nodup_dedup l
  have h3 : List.Perm (List.foldl insertNew [] l) l.dedup := by
    rw [List.perm_ext_iff_of_nodup h1 h2]
    intro a
    rw [mem_foldl_insertNew, List.mem_dedup]
    simp
  exact h3.length_eq

theorem dedup_length_map_injective {f : Str → Str} (hf : Function.Injective f)
    (l : List Str) : ((l.map f).dedup).length = l.dedup.length := by
  induction l with
  | nil => rfl
  | cons a t ih =>
    rw [List.map_cons]
    by_cases hm : a ∈ t
    · rw [List.dedup_cons_of_mem hm,
        List.dedup_cons_of_mem ((List.mem_map_of_injective hf).mpr hm)]
      exact ih
    · rw [List.dedup_cons_of_not_mem hm,
        List.dedup_cons_of_not_mem (fun hc => hm ((List.mem_map_of_injective hf).mp hc))]
      simp [ih]

theorem rowIndexOf_injective (doc : Str) : Function.Injective (rowIndexOf doc) := by
  intro a b h
  unfold rowIndexOf at h
  exact List.append_cancel_left h

/-- C4: In a single-document parse (starting from an empty table) no two
rows share an index, and the number of rows equals the number of distinct
non-"stop" page labels encountered — re-encountering a label reuses the
same row index `doc ++ "-Page-" ++ label`, and `updateRows` then updates
the existing row instead of appending a duplicate.  (The "non-stop" filter
is vacuous: no capturable label lower-cases to "stop".) -/
theorem c4_one_row_per_distinct_label (doc : Str) (paras : List Str) :
    (tableKeys (updateWordCount doc paras [])).Nodup ∧
    (tableKeys (updateWordCount doc paras [])).length
      = (((pageLabels paras).filter
            (fun l => asciiLower l ≠ ("stop".data))).dedup).length := by
  have hkeys := tableKeys_updateWordCount doc paras []
  have hfilter : (pageLabels paras).filter (fun l => asciiLower l ≠ ("stop".data))
      = pageLabels paras := by
    rw [List.filter_eq_self]
    intro a ha
    obtain ⟨text, _, hsp⟩ := List.mem_filterMap.mp ha
    simp only [ne_eq, decide_not, Bool.not_eq_eq_eq_not, Bool.not_true,
      decide_eq_false_iff_not]
    exact digitHead_lower_ne_stop (searchPage_label hsp)
  constructor
  · rw [hkeys]
    exact foldl_insertNew_nodup List.nodup_nil
  · rw [hkeys, hfilter]
    have hinit : tableKeys ([] : Table) = [] := rfl
    rw [hinit, foldl_insertNew_length,
      dedup_length_map_injective (rowIndexOf_injective doc)]

theorem wcValP_transcriptStep (sp : Option Str) (idx : Str) (tbl : Table)
    (text : Str) (k : Str) :
    wcValP (transcriptStep sp idx tbl text) k = wcValP tbl k := by
  unfold transcriptStep wcValP
  split
  · by_cases hk : k = idx
    · subst hk
      rw [getRow_updateRows_self]
    · rw [getRow_updateRows_ne _ hk]
  · split
    · by_cases hk : k = idx
      · subst hk
        rw [getRow_updateRows_self]
      · rw [getRow_updateRows_ne _ hk]
    · rfl

theorem wcValC_transcriptStep (sp : Option Str) (idx : Str) (tbl : Table)
    (text : Str) (k : Str) :
    wcValC (transcriptStep sp idx tbl text) k = wcValC tbl k := by
  unfold transcriptStep wcValC
  split
  · by_cases hk : k = idx
    · subst hk
      rw [getRow_updateRows_self]
    · rw [getRow_updateRows_ne _ hk]
  · split
    · by_cases hk : k = idx
      · subst hk
        rw [getRow_updateRows_self]
      · rw [getRow_updateRows_ne _ hk]
    · rfl

theorem wcValP_initWcStep (idx : Str) (tbl : Table) (k : Str) :
    wcValP (initWcStep idx tbl) k = wcValP tbl k := by
  unfold initWcStep wcValP
  by_cases hk : k = idx
  · subst hk
    rw [getRow_updateRows_self]
    cases (getRow tbl k).P_WordCount <;> rfl
  · rw [getRow_updateRows_ne _ hk]

theorem wcValC_initWcStep (idx : Str) (tbl : Table) (k : Str) :
    wcValC (initWcStep idx tbl) k = wcValC tbl k := by
  unfold initWcStep wcValC
  by_cases hk : k = idx
  · subst hk
    rw [getRow_updateRows_self]
    cases (getRow tbl k).C_WordCount <;> rfl
  · rw [getRow_updateRows_ne _ hk]

theorem wcValP_marker (doc lbl : Str) (tbl : Table) (k : Str) :
    wcValP (updateRows tbl (rowIndexOf doc lbl)
      (fun r => { r with ID := some doc, PageNum := some lbl })) k
      = wcValP tbl k := by
  unfold wcValP
  by_cases hk : k = rowIndexOf doc lbl
  · subst hk
    rw [getRow_updateRows_self]
  · rw [getRow_updateRows_ne _ hk]

theorem wcValC_marker (doc lbl : Str) (tbl : Table) (k : Str) :
    wcValC (updateRows tbl (rowIndexOf doc lbl)
      (fun r => { r with ID := some doc, PageNum := some lbl })) k
      = wcValC tbl k := by
  unfold wcValC
  by_cases hk : k = rowIndexOf doc lbl
  · subst hk
    rw [getRow_updateRows_self]
  · rw [getRow_updateRows_ne _ hk]

theorem wcValP_wcStep_paren (idx : Str) (tbl : Table) (text : Str) :
    wcValP (wcStep (some parenTag) idx tbl text) idx
      = wcValP tbl idx + netWords text := by
  unfold wcStep wcValP
  rw [if_pos rfl, getRow_updateRows_self]
  rfl

theorem wcValC_wcStep_child (idx : Str) (tbl : Table) (text : Str) :
    wcValC (wcStep (some childTag) idx tbl text) idx
      = wcValC tbl idx + netWords text := by
  unfold wcStep wcValC
  rw [if_neg (by decide), if_pos rfl, getRow_updateRows_self]
  rfl

theorem netWords_nil : netWords [] = 0 := by decide

theorem speakerStep_currIndex (st : ParseState) (text : Str) :
    (speakerStep st text).currIndex = st.currIndex := by
  unfold speakerStep
  split <;> rfl

/-- Shape of one parse step on a paragraph containing a page marker. -/
theorem updatePara_eq_marker {doc text lbl : Str} {st : ParseState}
    {tbl : Table} (h0 : ¬ text = []) (hsp : searchPage text = some lbl) :
    updatePara doc (st, tbl) text
      = ({ currIndex := some (rowIndexOf doc lbl), currPage := some lbl,
           currSpeaker := (speakerStep st text).currSpeaker },
         wcStep (speakerStep st text).currSpeaker (rowIndexOf doc lbl)
           (initWcStep (rowIndexOf doc lbl)
             (transcriptStep (speakerStep st text).currSpeaker (rowIndexOf doc lbl)
               (updateRows tbl (rowIndexOf doc lbl)
                 (fun r => { r with ID := some doc, PageNum := some lbl })) text))
           text) := by
  have hpair : pageStep doc (speakerStep st text) tbl text
      = ({ currIndex := some (rowIndexOf doc lbl), currPage := some lbl,
           currSpeaker := (speakerStep st text).currSpeaker },
         updateRows tbl (rowIndexOf doc lbl)
           (fun r => { r with ID := some doc, PageNum := some lbl })) := by
    unfold pageStep
    rw [hsp]
    simp [stopCheck]
  simp only [updatePara, if_neg h0]
  rw [hpair]

/-- Shape of one parse step on a marker-free paragraph while no row is
active. -/
theorem updatePara_eq_nomark_none {doc text : Str} {st : ParseState}
    {tbl : Table} (h0 : ¬ text = []) (hsp : searchPage text = none)
    (hci : st.currIndex = none) :
    updatePara doc (st, tbl) text = (speakerStep st text, tbl) := by
  have hpair : pageStep doc (speakerStep st text) tbl text
      = (speakerStep st text, tbl) := by
    unfold pageStep
    rw [hsp]
  simp only [updatePara, if_neg h0]
  rw [hpair]
  rw [speakerStep_currIndex, hci]

/-- Shape of one parse step on a marker-free paragraph while the row `idx`
is active. -/
theorem updatePara_eq_nomark_some {doc text idx : Str} {st : ParseState}
    {tbl : Table} (h0 : ¬ text = []) (hsp : searchPage text = none)
    (hci : st.currIndex = some idx) :
    updatePara doc (st, tbl) text
      = (speakerStep st text,
         wcStep (speakerStep st text).currSpeaker idx
           (initWcStep idx
             (transcriptStep (speakerStep st text).currSpeaker idx tbl text))
           text) := by
  have hpair : pageStep doc (speakerStep st text) tbl text
      = (speakerStep st text, tbl) := by
    unfold pageStep
    rw [hsp]
  simp only [updatePara, if_neg h0]
  rw [hpair]
  rw [speakerStep_currIndex, hci]

/-- C2 (amended): while a row and a speaker are active after processing a
paragraph, the value added to that speaker's word-count column is exactly
`tokenCount − 2·pageCount − corrCount − nameCount` of the paragraph. -/
theorem c2_net_word_contribution (doc : Str) (st : ParseState) (tbl : Table)
    (text : Str) :
    (∀ idx, (updatePara doc (st, tbl) text).1.currSpeaker = some parenTag →
      (updatePara doc (st, tbl) text).1.currIndex = some idx →
      wcValP (updatePara doc (st, tbl) text).2 idx
        = wcValP tbl idx + netWords text) ∧
    (∀ idx, (updatePara doc (st, tbl) text).1.currSpeaker = some childTag →
      (updatePara doc (st, tbl) text).1.currIndex = some idx →
      wcValC (updatePara doc (st, tbl) text).2 idx
        = wcValC tbl idx + netWords text) := by
  by_cases h0 : text = []
  · subst h0
    simp only [updatePara, if_true]
    constructor
    · intro idx _ _
      rw [netWords_nil, add_zero]
    · intro idx _ _
      rw [netWords_nil, add_zero]
  · cases hsp : searchPage text with
    | some lbl =>
      rw [updatePara_eq_marker h0 hsp]
      constructor
      · intro idx hspk hidx
        simp only [Option.some.injEq] at hidx
        subst hidx
        simp only at hspk
        rw [hspk, wcValP_wcStep_paren, wcValP_initWcStep, wcValP_transcriptStep,
          wcValP_marker]
      · intro idx hspk hidx
        simp only [Option.some.injEq] at hidx
        subst hidx
        simp only at hspk
        rw [hspk, wcValC_wcStep_child, wcValC_initWcStep, wcValC_transcriptStep,
          wcValC_marker]
    | none =>
      cases hci : st.currIndex with
      | none =>
        rw [updatePara_eq_nomark_none h0 hsp hci]
        constructor
        · intro idx hspk hidx
          rw [speakerStep_currIndex, hci] at hidx
          cases hidx
        · intro idx hspk hidx
          rw [speakerStep_currIndex, hci] at hidx
          cases hidx
      | some j =>
        rw [updatePara_eq_nomark_some h0 hsp hci]
        constructor
        · intro idx hspk hidx
          simp only [speakerStep_currIndex, hci, Option.some.injEq] at hidx
          subst hidx
          simp only at hspk
          rw [hspk, wcValP_wcStep_paren, wcValP_initWcStep, wcValP_transcriptStep]
        · intro idx hspk hidx
          simp only [speakerStep_currIndex, hci, Option.some.injEq] at hidx
          subst hidx
          simp only at hspk
          rw [hspk, wcValC_wcStep_child, wcValC_initWcStep, wcValC_transcriptStep]

/-- C2 counterexample: the example paragraph
`"[Page 3] Hello [[helo]] world [child's name]"` has 7 whitespace-delimited
tokens (not 8), and with 1 page marker, 1 correction and 1 redaction its net
contribution is 7 − 2 − 1 − 1 = 3 (not 4). -/
theorem c2_example_tokens_counterexample :
    tokenCount exPara = 7 ∧ pageCount exPara = 1 ∧ corrCount exPara = 1 ∧
    nameCount exPara = 1 ∧ netWords exPara = 3 ∧
    ¬ (tokenCount exPara = 8 ∧ netWords exPara = 4) := by decide

/-- Witness for C2 at the example paragraph. -/
theorem c2_net_word_contribution_witness :
    wcValP (updatePara ("d".data)
        (⟨some ("d-Page-1".data), some ("1".data), some parenTag⟩, exTbl)
        exPara).2 ("d-Page-3".data)
      = wcValP exTbl ("d-Page-3".data) + netWords exPara :=
  (c2_net_word_contribution ("d".data)
      ⟨some ("d-Page-1".data), some ("1".data), some parenTag⟩ exTbl exPara).1
    ("d-Page-3".data) (by decide) (by decide)

/-- C3: the end-to-end "stop" scenario, evaluated on the code.  The marker
`[Page stop]` cannot match the page pattern (the label must start with a
digit) and the stop comparison of line 138 never fires, so the stop page's
paragraphs are appended to the still-active page 2 row: the table does get
exactly the three rows for pages 1, 2 and 3, but page 2's parent transcript
contains the stop page's text "ignored", contradicting the claim. -/
theorem c3_stop_page_text_lands_on_previous_page :
    tableKeys (updateWordCount ("doc".data) ex3Paras [])
      = [("doc-Page-1".data), ("doc-Page-2".data), ("doc-Page-3".data)] ∧
    (getRow (updateWordCount ("doc".data) ex3Paras [])
        ("doc-Page-2".data)).P_transcript
      = some (" [Page 2] two [Page stop] ignored".data) ∧
    List.IsInfix ("ignored".data)
      (((getRow (updateWordCount ("doc".data) ex3Paras [])
        ("doc-Page-2".data)).P_transcript).getD []) := by
  refine ⟨by decide, by decide, ?_⟩
  exact ⟨(" [Page 2] two [Page stop] ".data), [], by decide⟩

/-- C10: `_setUp` writes the accumulated table to the save file after each
parsed document (the `to_csv` of line 107 sits inside the directory loop),
so the `k`-th write holds exactly the results of the first `k+1` `.docx`
entries; if parsing a later document fails, the save file already holds the
results of all earlier ones. -/
theorem c10_table_saved_after_each_document (docs : List (Str × List Str)) :
    setUpWrites [] docs
      = (List.range (docxEntries docs).length).map
          (fun k => parseBatch [] ((docxEntries docs).take (k + 1))) := by
  suffices h : ∀ tbl, setUpWrites tbl docs
      = (List.range (docxEntries docs).length).map
          (fun k => parseBatch tbl ((docxEntries docs).take (k + 1))) from h []
  induction docs with
  | nil => intro tbl; rfl
  | cons d rest ih =>
    intro tbl
    obtain ⟨fname, paras⟩ := d
    by_cases hd : afterLastDot fname = ("docx".data)
    · have hfilter : docxEntries ((fname, paras) :: rest)
          = (fname, paras) :: docxEntries rest := by
        unfold docxEntries
        rw [List.filter_cons_of_pos]
        simpa using hd
      rw [hfilter]
      simp only [setUpWrites, if_pos hd]
      rw [ih (updateWordCount (docBaseName fname) paras tbl)]
      rw [List.length_cons, List.range_succ_eq_map, List.map_cons, List.map_map]
      rfl
    · have hfilter : docxEntries ((fname, paras) :: rest) = docxEntries rest := by
        unfold docxEntries
        rw [List.filter_cons_of_neg]
        simpa using hd
      rw [hfilter]
      simp only [setUpWrites, if_neg hd]
      exact ih tbl

/-- C5: `search_keys` raises when either transcript column is missing; the
check precedes the read of the keyword source (the outcome does not depend
on it) and precedes every column addition, so the caller's table is
untouched on this error. -/
theorem c5_missing_transcript_columns_fail (t : DynTable)
    (k1 k2 : List (List Cell))
    (h : ("P_transcript".data) ∉ t.cols ∨ ("C_transcript".data) ∉ t.cols) :
    (∃ e, search_keys t k1 = Except.error e) ∧
    search_keys t k1 = search_keys t k2 := by
  unfold search_keys
  by_cases hp : ("P_transcript".data) ∈ t.cols
  · have hc : ("C_transcript".data) ∉ t.cols := by
      rcases h with h | h
      · exact absurd hp h
      · exact h
    simp only [if_pos hp, if_neg hc]
    exact ⟨⟨_, rfl⟩, trivial⟩
  · simp only [if_neg hp]
    exact ⟨⟨_, rfl⟩, trivial⟩

/-- Witness for C5: a table with only an `ID` column. -/
theorem c5_missing_transcript_columns_fail_witness :
    (∃ e, search_keys ⟨[("ID".data)], [[(("ID".data), Cell.str ("d".data))]]⟩ []
        = Except.error e) ∧
    search_keys ⟨[("ID".data)], [[(("ID".data), Cell.str ("d".data))]]⟩ []
      = search_keys ⟨[("ID".data)], [[(("ID".data), Cell.str ("d".data))]]⟩
          [[Cell.str ("happy".data)]] :=
  c5_missing_transcript_columns_fail _ _ _ (Or.inl (by decide))

theorem filterMap_typeCell (row : List Str) :
    (row.map typeCell).filterMap (fun c =>
        match c with
        | Cell.str s => some s
        | _ => none)
      = row.filter (fun s => !s.isEmpty && !naLike s && !numLike s) := by
  induction row with
  | nil => rfl
  | cons a t ih =>
    rw [List.map_cons, List.filterMap_cons, List.filter_cons]
    cases ha : a.isEmpty <;> cases hna : naLike a <;> cases hnu : numLike a <;>
      simp [typeCell, ha, hna, hnu, ih]

/-- C6: the queries derived by `search_keys` are exactly the cells of the
keyword grid that the CSV reader leaves as (necessarily non-empty) text —
position-independent, with blank/NA and numeric cells skipped; on the row
`["happy", "", 3, "sad\n"]` exactly the queries "happy" and "sad\n" are
derived. -/
theorem c6_queries_are_nonempty_text_cells :
    (∀ rawRows : List (List Str),
      extractQueries (typeCsv rawRows)
        = rawRows.flatMap (fun row =>
            row.filter (fun s => !s.isEmpty && !naLike s && !numLike s))) ∧
    extractQueries (typeCsv [[("happy".data), [], ("3".data), ("sad\n".data)]])
      = [("happy".data), ("sad\n".data)] := by
  constructor
  · intro rawRows
    induction rawRows with
    | nil => rfl
    | cons r t ih =>
      unfold typeCsv extractQueries at ih ⊢
      rw [List.map_cons, List.flatMap_cons, List.flatMap_cons]
      rw [filterMap_typeCell, ih]
  · decide

/-! ### Column evolution under keyword tallying (C7, C9) -/
theorem getCell_setCell (row : RowCells) (c : Str) (v : Cell) (c' : Str) :
    getCell (setCell row c v) c' = if c' = c then v else getCell row c' := by
  induction row with
  | nil =>
    by_cases h : c' = c
    · subst h
      simp [setCell, getCell, lookupCell]
    · have hne : ¬ (c = c') := fun hh => h hh.symm
      simp [setCell, getCell, lookupCell, h, hne]
  | cons p rest ih =>
    obtain ⟨c0, w⟩ := p
    by_cases h0 : c0 = c
    · subst h0
      by_cases h : c' = c0
      · subst h
        simp [setCell, getCell, lookupCell]
      · have hne : ¬ (c0 = c') := fun hh => h hh.symm
        simp [setCell, getCell, lookupCell, h, hne]
    · simp only [setCell, if_neg h0]
      by_cases h : c' = c0
      · subst h
        have hcc : ¬ (c' = c) := fun hh => h0 (by rw [hh])
        simp [getCell, lookupCell, hcc]
      · have hne : ¬ (c0 = c') := fun hh => h hh.symm
        simp only [getCell, lookupCell, if_neg hne]
        simp only [getCell] at ih
        exact ih

theorem setColRows_length (c : Str) (rows : List RowCells) (vs : List Cell)
    (h : vs.length = rows.length) : (setColRows c rows vs).length = rows.length := by
  induction rows generalizing vs with
  | nil => simp [setColRows]
  | cons row rest ih =>
    cases vs with
    | nil => simp at h
    | cons v vtl =>
      simp only [setColRows, List.length_cons] at h ⊢
      rw [ih vtl (by omega)]

theorem getCol_setCol_self (t : DynTable) (c : Str) (vs : List Cell)
    (h : vs.length = t.rows.length) : getCol (setCol t c vs) c = vs := by
  obtain ⟨cols, rows⟩ := t
  simp only [setCol, getCol] at h ⊢
  induction rows generalizing vs with
  | nil =>
    cases vs with
    | nil => rfl
    | cons v vtl => simp at h
  | cons row rest ih =>
    cases vs with
    | nil => simp at h
    | cons v vtl =>
      simp only [setColRows, List.map_cons, getCell_setCell, if_pos rfl]
      simp only [List.length_cons] at h
      rw [ih vtl (by omega)]
      simp [getCell_setCell]

theorem getCol_setCol_ne (t : DynTable) {c c' : Str} (h : c' ≠ c)
    (vs : List Cell) (hlen : vs.length = t.rows.length) :
    getCol (setCol t c vs) c' = getCol t c' := by
  obtain ⟨cols, rows⟩ := t
  simp only [setCol, getCol] at hlen ⊢
  induction rows generalizing vs with
  | nil => cases vs <;> rfl
  | cons row rest ih =>
    cases vs with
    | nil => simp at hlen
    | cons v vtl =>
      simp only [setColRows, List.map_cons, getCell_setCell, if_neg h]
      simp only [List.length_cons] at hlen
      rw [ih vtl (by omega)]

theorem setCol_rows_length (t : DynTable) (c : Str) (vs : List Cell)
    (h : vs.length = t.rows.length) :
    (setCol t c vs).rows.length = t.rows.length := by
  simp only [setCol]
  exact setColRows_length c t.rows vs h

theorem getCol_length (t : DynTable) (c : Str) :
    (getCol t c).length = t.rows.length := by
  simp [getCol]

theorem addQueryCols_rows_length (t : DynTable) (q : Str) :
    (addQueryCols t q).rows.length = t.rows.length := by
  unfold addQueryCols
  rw [setCol_rows_length, setCol_rows_length]
  · rw [List.length_map, getCol_length]
  · rw [List.length_map, getCol_length, setCol_rows_length]
    rw [List.length_map, getCol_length]

theorem pq_ne_Ct (q : Str) : ("P_".data) ++ q ≠ ("C_transcript".data) := by
  intro h
  have h2 : ('P' :: '_' :: q) = ('C' :: ("_transcript".data)) := h
  injection h2 with h3 _
  exact absurd h3 (by decide)

theorem cq_ne_Pt (q : Str) : ("C_".data) ++ q ≠ ("P_transcript".data) := by
  intro h
  have h2 : ('C' :: '_' :: q) = ('P' :: ("_transcript".data)) := h
  injection h2 with h3 _
  exact absurd h3 (by decide)

theorem pq_ne_cq (q q' : Str) : ("P_".data) ++ q ≠ ("C_".data) ++ q' := by
  intro h
  have h2 : ('P' :: '_' :: q) = ('C' :: '_' :: q') := h
  injection h2 with h3 _
  exact absurd h3 (by decide)

theorem pq_eq_Pt_iff (q : Str) :
    ("P_".data) ++ q = ("P_transcript".data) ↔ q = ("transcript".data) := by
  constructor
  · intro h
    exact List.append_cancel_left
      (show ("P_".data) ++ q = ("P_".data) ++ ("transcript".data) from h)
  · intro h
    rw [h]
    rfl

theorem cq_eq_Ct_iff (q : Str) :
    ("C_".data) ++ q = ("C_transcript".data) ↔ q = ("transcript".data) := by
  constructor
  · intro h
    exact List.append_cancel_left
      (show ("C_".data) ++ q = ("C_".data) ++ ("transcript".data) from h)
  · intro h
    rw [h]
    rfl

theorem pq_inj {q q' : Str} (h : ("P_".data) ++ q = ("P_".data) ++ q') : q = q' :=
  List.append_cancel_left h

theorem cq_inj {q q' : Str} (h : ("C_".data) ++ q = ("C_".data) ++ q') : q = q' :=
  List.append_cancel_left h

theorem getCol_addQueryCols_ne (t : DynTable) (q : Str) {c : Str}
    (hP : c ≠ ("P_".data) ++ q) (hC : c ≠ ("C_".data) ++ q) :
    getCol (addQueryCols t q) c = getCol t c := by
  unfold addQueryCols
  rw [getCol_setCol_ne _ hC, getCol_setCol_ne _ hP]
  · rw [List.length_map, getCol_length]
  · rw [List.length_map, getCol_length, setCol_rows_length]
    rw [List.length_map, getCol_length]

theorem getCol_addQueryCols_P (t : DynTable) (q : Str) :
    getCol (addQueryCols t q) (("P_".data) ++ q)
      = (getCol t ("P_transcript".data)).map (lowerCountCell q) := by
  unfold addQueryCols
  rw [getCol_setCol_ne _ (pq_ne_cq q q), getCol_setCol_self]
  · rw [List.length_map, getCol_length]
  · rw [List.length_map, getCol_length, setCol_rows_length]
    rw [List.length_map, getCol_length]

theorem getCol_addQueryCols_C (t : DynTable) (q : Str) :
    getCol (addQueryCols t q) (("C_".data) ++ q)
      = (getCol t ("C_transcript".data)).map (lowerCountCell q) := by
  unfold addQueryCols
  rw [getCol_setCol_self]
  · rw [getCol_setCol_ne _ (Ne.symm (pq_ne_Ct q))]
    rw [List.length_map, getCol_length]
  · rw [List.length_map, getCol_length, setCol_rows_length]
    rw [List.length_map, getCol_length]

theorem getCol_addQueryCols_Pt (t : DynTable) (q : Str)
    (hq : q ≠ ("transcript".data)) :
    getCol (addQueryCols t q) ("P_transcript".data)
      = getCol t ("P_transcript".data) :=
  getCol_addQueryCols_ne t q
    (fun h => hq ((pq_eq_Pt_iff q).mp h.symm))
    (fun h => cq_ne_Pt q h.symm)

theorem getCol_addQueryCols_Ct (t : DynTable) (q : Str)
    (hq : q ≠ ("transcript".data)) :
    getCol (addQueryCols t q) ("C_transcript".data)
      = getCol t ("C_transcript".data) :=
  getCol_addQueryCols_ne t q
    (fun h => pq_ne_Ct q h.symm)
    (fun h => hq ((cq_eq_Ct_iff q).mp h.symm))

theorem getCol_foldl_untouched (qs : List Str) (t : DynTable) (c : Str)
    (h : ∀ q' ∈ qs, c ≠ ("P_".data) ++ q' ∧ c ≠ ("C_".data) ++ q') :
    getCol (qs.foldl addQueryCols t) c = getCol t c := by
  induction qs generalizing t with
  | nil => rfl
  | cons q rest ih =>
    rw [List.foldl_cons, ih _ (fun q' hq' => h q' (List.mem_cons_of_mem _ hq'))]
    exact getCol_addQueryCols_ne t q (h q (List.mem_cons_self _ _)).1
      (h q (List.mem_cons_self _ _)).2

theorem getCol_foldl_Pt (qs : List Str) (t : DynTable)
    (hq : ∀ q' ∈ qs, q' ≠ ("transcript".data)) :
    getCol (qs.foldl addQueryCols t) ("P_transcript".data)
      = getCol t ("P_transcript".data) := by
  induction qs generalizing t with
  | nil => rfl
  | cons q rest ih =>
    rw [List.foldl_cons, ih _ (fun q' hq' => hq q' (List.mem_cons_of_mem _ hq'))]
    exact getCol_addQueryCols_Pt t q (hq q (List.mem_cons_self _ _))

theorem getCol_foldl_Ct (qs : List Str) (t : DynTable)
    (hq : ∀ q' ∈ qs, q' ≠ ("transcript".data)) :
    getCol (qs.foldl addQueryCols t) ("C_transcript".data)
      = getCol t ("C_transcript".data) := by
  induction qs generalizing t with
  | nil => rfl
  | cons q rest ih =>
    rw [List.foldl_cons, ih _ (fun q' hq' => hq q' (List.mem_cons_of_mem _ hq'))]
    exact getCol_addQueryCols_Ct t q (hq q (List.mem_cons_self _ _))

/-- The final value of query `q`'s count columns after the whole fold, when
no query can clobber the transcript columns. -/
theorem getCol_foldl_count (qs : List Str) (t : DynTable) (q : Str)
    (hmem : q ∈ qs) (hq : ∀ q' ∈ qs, q' ≠ ("transcript".data)) :
    getCol (qs.foldl addQueryCols t) (("P_".data) ++ q)
      = (getCol t ("P_transcript".data)).map (lowerCountCell q) ∧
    getCol (qs.foldl addQueryCols t) (("C_".data) ++ q)
      = (getCol t ("C_transcript".data)).map (lowerCountCell q) := by
  induction qs generalizing t with
  | nil => cases hmem
  | cons q0 rest ih =>
    rw [List.foldl_cons]
    by_cases hqr : q ∈ rest
    · have h1 := ih (addQueryCols t q0) hqr
        (fun q' hq' => hq q' (List.mem_cons_of_mem _ hq'))
      rw [getCol_addQueryCols_Pt t q0 (hq q0 (List.mem_cons_self _ _)),
        getCol_addQueryCols_Ct t q0 (hq q0 (List.mem_cons_self _ _))] at h1
      exact h1
    · have hq0 : q = q0 := by
        rcases List.mem_cons.mp hmem with h | h
        · exact h
        · exact absurd h hqr
      subst hq0
      constructor
      · rw [getCol_foldl_untouched rest (addQueryCols t q) (("P_".data) ++ q)
          (fun q' hq' => ⟨fun hc => hqr (pq_inj hc ▸ hq'),
                          fun hc => pq_ne_cq q q' hc⟩)]
        exact getCol_addQueryCols_P t q
      · rw [getCol_foldl_untouched rest (addQueryCols t q) (("C_".data) ++ q)
          (fun q' hq' => ⟨fun hc => pq_ne_cq q' q hc.symm,
                          fun hc => hqr (cq_inj hc ▸ hq')⟩)]
        exact getCol_addQueryCols_C t q

theorem mem_addColName_self (cols : List Str) (c : Str) : c ∈ addColName cols c := by
  unfold addColName
  by_cases h : c ∈ cols
  · simp only [if_pos h]
    exact h
  · simp [h]

theorem mem_addColName_mono {cols : List Str} {c' : Str} (h : c' ∈ cols)
    (c : Str) : c' ∈ addColName cols c := by
  unfold addColName
  by_cases hm : c ∈ cols
  · simpa [hm] using h
  · simp [hm, h]

theorem mem_addQueryCols_mono {t : DynTable} {c : Str} (h : c ∈ t.cols)
    (q : Str) : c ∈ (addQueryCols t q).cols := by
  unfold addQueryCols setCol
  exact mem_addColName_mono (mem_addColName_mono h _) _

theorem mem_addQueryCols_P (t : DynTable) (q : Str) :
    (("P_".data) ++ q) ∈ (addQueryCols t q).cols := by
  unfold addQueryCols setCol
  exact mem_addColName_mono (mem_addColName_self _ _) _

theorem mem_addQueryCols_C (t : DynTable) (q : Str) :
    (("C_".data) ++ q) ∈ (addQueryCols t q).cols := by
  unfold addQueryCols setCol
  exact mem_addColName_self _ _

theorem mem_foldl_cols_mono (qs : List Str) {t : DynTable} {c : Str}
    (h : c ∈ t.cols) : c ∈ (qs.foldl addQueryCols t).cols := by
  induction qs generalizing t with
  | nil => exact h
  | cons q rest ih => exact ih (mem_addQueryCols_mono h q)

theorem mem_foldl_cols_count (qs : List Str) (t : DynTable) {q : Str}
    (hmem : q ∈ qs) :
    (("P_".data) ++ q) ∈ (qs.foldl addQueryCols t).cols ∧
    (("C_".data) ++ q) ∈ (qs.foldl addQueryCols t).cols := by
  induction qs generalizing t with
  | nil => cases hmem
  | cons q0 rest ih =>
    rw [List.foldl_cons]
    by_cases hqr : q ∈ rest
    · exact ih _ hqr
    · have hq0 : q = q0 := by
        rcases List.mem_cons.mp hmem with h | h
        · exact h
        · exact absurd h hqr
      subst hq0
      exact ⟨mem_foldl_cols_mono rest (mem_addQueryCols_P t q),
             mem_foldl_cols_mono rest (mem_addQueryCols_C t q)⟩

theorem lookupCell_mapped (cols : List Str) (g : Str → Cell) (c : Str) :
    lookupCell (cols.map (fun c0 => (c0, g c0))) c
      = if c ∈ cols then some (g c) else none := by
  induction cols with
  | nil => simp [lookupCell]
  | cons c0 rest ih =>
    by_cases h : c0 = c
    · subst h
      simp [lookupCell, ih]
    · have hne : ¬ (c = c0) := fun hh => h hh.symm
      simp only [List.map_cons, lookupCell, if_neg h, ih, List.mem_cons]
      by_cases hm : c ∈ rest
      · simp [hm, hne]
      · simp [hm, hne]

theorem getCol_fillZero (t : DynTable) (c : Str) (h : c ∈ t.cols) :
    getCol (fillZero t) c = (getCol t c).map fillCell := by
  unfold fillZero getCol
  rw [List.map_map]
  simp [getCell, lookupCell_mapped, h, Function.comp]

theorem fillZero_cols (t : DynTable) : (fillZero t).cols = t.cols := rfl

/-! ### The regex model on plain literal queries

For a query with no metacharacter the compiled pattern is the sequence of
its characters, the matcher recognises exactly the prefix occurrences of
the query, and the scan of `findall` is literal non-overlapping substring
counting — the semantics the specification fixes for plain literal
queries. -/
theorem exBind_ok {α β : Type} (a : α) (f : α → Except Str β) :
    exBind (Except.ok a) f = f a := rfl

theorem exBind_error {α β : Type} (e : Str) (f : α → Except Str β) :
    exBind (Except.error e) f = Except.error e := rfl

theorem plainCh_ne {c x : Char} (h : plainCh c = true)
    (hx : plainCh x = false) : ¬ (c = x) := by
  intro he
  rw [he, hx] at h
  cases h

theorem plainPat_ne_nil {q : Str} (h : plainPat q = true) : q ≠ [] := by
  intro he
  subst he
  simp [plainPat] at h

theorem plainPat_mem {q : Str} (h : plainPat q = true) :
    ∀ c ∈ q, plainCh c = true := by
  unfold plainPat at h
  rw [Bool.and_eq_true] at h
  exact fun c hc => List.all_eq_true.mp h.2 c hc

theorem parseAtomF_plain (pAlt : Str → Except Str (RE × Str)) {c : Char}
    (h : plainCh c = true) (rest : Str) :
    parseAtomF pAlt (c :: rest) = Except.ok (RE.cset (CSet.one c), rest) := by
  have h1 : ¬ (c = '(') := plainCh_ne h (by decide)
  have h2 : ¬ (c = '[') := plainCh_ne h (by decide)
  have h3 : ¬ (c = bslashCh) := plainCh_ne h (by decide)
  have h4 : ¬ (c = '.') := plainCh_ne h (by decide)
  have h5 : ¬ (c = '*' ∨ c = '+' ∨ c = '?') := by
    rintro (h' | h' | h')
    · exact plainCh_ne h (by decide) h'
    · exact plainCh_ne h (by decide) h'
    · exact plainCh_ne h (by decide) h'
  have h6 : ¬ (c = '^' ∨ c = '$') := by
    rintro (h' | h')
    · exact plainCh_ne h (by decide) h'
    · exact plainCh_ne h (by decide) h'
  have h7 : ¬ (c = lbraceCh) := plainCh_ne h (by decide)
  simp only [parseAtomF, if_neg h1, if_neg h2, if_neg h3, if_neg h4,
    if_neg h5, if_neg h6, if_neg h7]

theorem parseQuants_plain (a : RE) (s : Str)
    (hs : ∀ c ∈ s, plainCh c = true) : parseQuants a s = Except.ok (a, s) := by
  cases s with
  | nil => rfl
  | cons c rest =>
    have hc := hs c (List.mem_cons_self c rest)
    have h1 : ¬ (c = '*') := plainCh_ne hc (by decide)
    have h2 : ¬ (c = '+') := plainCh_ne hc (by decide)
    have h3 : ¬ (c = '?') := plainCh_ne hc (by decide)
    have h4 : ¬ (c = lbraceCh) := plainCh_ne hc (by decide)
    simp only [parseQuants, if_neg h1, if_neg h2, if_neg h3, if_neg h4]

theorem parseSeqF_plain (pAlt : Str → Except Str (RE × Str)) :
    ∀ (q : Str), (∀ c ∈ q, plainCh c = true) →
    ∀ (f : Nat), q.length + 1 ≤ f → ∀ (acc : List RE),
    parseSeqF pAlt f q acc
      = Except.ok (acc ++ q.map (fun c => RE.cset (CSet.one c)), []) := by
  intro q
  induction q with
  | nil =>
    intro _ f hf acc
    obtain ⟨f2, rfl⟩ : ∃ f2, f = f2 + 1 := ⟨f - 1, by omega⟩
    simp [parseSeqF]
  | cons c q2 ih =>
    intro hq f hf acc
    obtain ⟨f2, rfl⟩ : ∃ f2, f = f2 + 1 := ⟨f - 1, by omega⟩
    have hc := hq c (List.mem_cons_self c q2)
    have h1 : ¬ (c = '|' ∨ c = ')') := by
      rintro (h' | h')
      · exact plainCh_ne hc (by decide) h'
      · exact plainCh_ne hc (by decide) h'
    have hq2 : ∀ x ∈ q2, plainCh x = true :=
      fun x hx => hq x (List.mem_cons_of_mem c hx)
    rw [show parseSeqF pAlt (f2 + 1) (c :: q2) acc
        = (if c = '|' ∨ c = ')' then Except.ok (acc, c :: q2)
           else exBind (parseAtomF pAlt (c :: q2)) (fun p =>
             exBind (parseQuants p.1 p.2) (fun p2 =>
               parseSeqF pAlt f2 p2.2 (acc ++ [p2.1])))) from rfl]
    rw [if_neg h1]
    simp only [parseAtomF_plain pAlt hc q2, exBind_ok,
      parseQuants_plain (RE.cset (CSet.one c)) q2 hq2]
    rw [ih hq2 f2 (by simp only [List.length_cons] at hf; omega)
      (acc ++ [RE.cset (CSet.one c)])]
    simp [List.append_assoc]

theorem parseAltF_plain (q : Str) (hq : ∀ c ∈ q, plainCh c = true)
    (f : Nat) (hf : 1 ≤ f) : parseAltF f q = Except.ok (litRE q, []) := by
  obtain ⟨f2, rfl⟩ : ∃ f2, f = f2 + 1 := ⟨f - 1, by omega⟩
  rw [show parseAltF (f2 + 1) q
      = exBind (parseSeqF (fun s2 => parseAltF f2 s2) (q.length + 1) q [])
          (fun p =>
            match p.2 with
            | [] => Except.ok (p.1.foldr RE.seq RE.eps, [])
            | c :: r2 =>
              if c = '|' then
                exBind (parseAltF f2 r2) (fun p2 =>
                  Except.ok (RE.alt (p.1.foldr RE.seq RE.eps) p2.1, p2.2))
              else Except.ok (p.1.foldr RE.seq RE.eps, c :: r2)) from rfl]
  rw [parseSeqF_plain (fun s2 => parseAltF f2 s2) q hq (q.length + 1)
    (le_refl (q.length + 1)) []]
  rfl

theorem compileRe_plain {q : Str} (hq : ∀ c ∈ q, plainCh c = true) :
    compileRe q = Except.ok (litRE q) := by
  unfold compileRe
  rw [parseAltF_plain q hq (q.length + 1) (by omega)]
  rfl

theorem reSize_lit (q : Str) : reSize (litRE q) = 2 * q.length + 1 := by
  induction q with
  | nil => rfl
  | cons c q2 ih =>
    show reSize (RE.seq (RE.cset (CSet.one c)) (litRE q2)) = _
    simp only [reSize, ih, List.length_cons]
    omega

theorem matchK_lit :
    ∀ (q : Str) (f : Nat), q.length + 1 ≤ f → ∀ (s : Str) (k : Str → Option Str),
    matchK f (litRE q) s k
      = if q.isPrefixOf s then k (List.drop q.length s) else none := by
  intro q
  induction q with
  | nil =>
    intro f hf s k
    obtain ⟨f2, rfl⟩ : ∃ f2, f = f2 + 1 := ⟨f - 1, by omega⟩
    rw [if_pos (show List.isPrefixOf ([] : Str) s = true by cases s <;> rfl)]
    rfl
  | cons c q2 ih =>
    intro f hf s k
    obtain ⟨f2, rfl⟩ : ∃ f2, f = f2 + 1 := ⟨f - 1, by omega⟩
    obtain ⟨f3, rfl⟩ : ∃ f3, f2 = f3 + 1 :=
      ⟨f2 - 1, by simp only [List.length_cons] at hf; omega⟩
    cases s with
    | nil => rfl
    | cons d s2 =>
      show (if csetTest (CSet.one c) d = true
            then matchK (f3 + 1) (litRE q2) s2 k else none)
          = if List.isPrefixOf (c :: q2) (d :: s2) = true
            then k (List.drop (c :: q2).length (d :: s2)) else none
      rw [show List.isPrefixOf (c :: q2) (d :: s2)
          = (c == d && List.isPrefixOf q2 s2) from rfl]
      by_cases hdc : d = c
      · subst hdc
        rw [if_pos (show csetTest (CSet.one d) d = true by simp [csetTest])]
        rw [ih (f3 + 1) (by simp only [List.length_cons] at hf; omega) s2 k]
        simp [List.drop_succ_cons]
      · have hcd : ¬ (c = d) := fun h' => hdc h'.symm
        rw [if_neg (by simp [csetTest, hdc]), if_neg (by simp [hcd])]

theorem matchAt_lit (q s : Str) :
    matchAt (litRE q) s = if q.isPrefixOf s then some q.length else none := by
  have hfuel : q.length + 1 ≤ (reSize (litRE q) + 1) * (s.length + 2) := by
    rw [reSize_lit]
    calc q.length + 1 ≤ (2 * q.length + 1 + 1) * 1 := by omega
    _ ≤ (2 * q.length + 1 + 1) * (s.length + 2) :=
        Nat.mul_le_mul_left _ (by omega)
  unfold matchAt
  rw [matchK_lit q _ hfuel s some]
  by_cases hp : List.isPrefixOf q s = true
  · rw [if_pos hp, if_pos hp]
    have hle : q.length ≤ s.length :=
      (List.isPrefixOf_iff_prefix.mp hp).length_le
    simp [List.length_drop, Nat.sub_sub_self hle]
  · rw [if_neg hp, if_neg hp]
    rfl

theorem reCountAux_lit (q : Str) (hne : q ≠ []) :
    ∀ (f1 : Nat) (s : Str) (f2 : Nat), s.length + 1 ≤ f1 → s.length ≤ f2 →
    reCountAux (litRE q) f1 s = countSubstrFuel q f2 s := by
  intro f1
  induction f1 with
  | zero =>
    intro s f2 h1 _
    omega
  | succ f ih =>
    intro s f2 h1 h2
    cases s with
    | nil =>
      have hp : List.isPrefixOf q ([] : Str) = false := by
        cases q with
        | nil => exact absurd rfl hne
        | cons a b => rfl
      rw [show reCountAux (litRE q) (f + 1) []
          = (if (matchAt (litRE q) []).isSome = true then 1 else 0) from rfl]
      rw [matchAt_lit, hp]
      cases f2 with
      | zero => rfl
      | succ f3 => rfl
    | cons a rest =>
      obtain ⟨f3, rfl⟩ : ∃ f3, f2 = f3 + 1 :=
        ⟨f2 - 1, by simp only [List.length_cons] at h2; omega⟩
      rw [show reCountAux (litRE q) (f + 1) (a :: rest)
          = (matchAt (litRE q) (a :: rest)).elim (reCountAux (litRE q) f rest)
              (fun L =>
                if L = 0 then
                  (matchAtNE (litRE q) (a :: rest)).elim
                      (1 + reCountAux (litRE q) f rest)
                    (fun L2 => 2 + reCountAux (litRE q) f
                        (List.drop L2 (a :: rest)))
                else 1 + reCountAux (litRE q) f (List.drop L (a :: rest)))
          from rfl]
      rw [show countSubstrFuel q (f3 + 1) (a :: rest)
          = (if (!q.isEmpty && q.isPrefixOf (a :: rest)) = true
             then 1 + countSubstrFuel q f3 (rest.drop (q.length - 1))
             else countSubstrFuel q f3 rest) from rfl]
      rw [matchAt_lit]
      by_cases hp : List.isPrefixOf q (a :: rest) = true
      · rw [if_pos hp, Option.elim_some]
        have hq0 : ¬ (q.length = 0) := by
          cases q with
          | nil => exact absurd rfl hne
          | cons x y => simp
        rw [if_neg hq0]
        have hcond : (!q.isEmpty && List.isPrefixOf q (a :: rest)) = true := by
          cases q with
          | nil => exact absurd rfl hne
          | cons x y => simp [hp]
        rw [if_pos hcond]
        have hdrop : List.drop q.length (a :: rest)
            = List.drop (q.length - 1) rest := by
          cases q with
          | nil => exact absurd rfl hne
          | cons x y => simp [List.drop_succ_cons]
        rw [hdrop]
        congr 1
        apply ih
        · simp only [List.length_drop]
          simp only [List.length_cons] at h1
          omega
        · simp only [List.length_drop]
          simp only [List.length_cons] at h2
          omega
      · rw [if_neg hp, Option.elim_none]
        rw [if_neg (by simp [hp])]
        exact ih rest f3 (by simp only [List.length_cons] at h1; omega)
          (by simp only [List.length_cons] at h2; omega)

theorem reCount_lit (q s : Str) (hne : q ≠ []) :
    reCount (litRE q) s = countSubstr q s :=
  reCountAux_lit q hne (s.length + 1) s s.length (le_refl _) (le_refl _)

theorem pyCount_plain {q : Str} (h : plainPat q = true) (s : Str) :
    pyCount q s = countSubstr q s := by
  unfold pyCount
  rw [compileRe_plain (plainPat_mem h)]
  exact reCount_lit q s (plainPat_ne_nil h)

theorem lowerCountCell_plain {q : Str} (h : plainPat q = true) (s : Str) :
    lowerCountCell q (Cell.str s)
      = Cell.num ((countSubstr q (asciiLower s) : Int)) := by
  show Cell.num ((pyCount q (asciiLower s) : Int)) = _
  rw [pyCount_plain h]

theorem tallyAll_ok :
    ∀ (qs : List Str) (t u : DynTable), tallyAll qs t = Except.ok u →
    u = qs.foldl addQueryCols t := by
  intro qs
  induction qs with
  | nil =>
    intro t u h
    rw [show tallyAll [] t = Except.ok t from rfl, Except.ok.injEq] at h
    rw [← h]
    rfl
  | cons q rest ih =>
    intro t u h
    rw [show tallyAll (q :: rest) t
        = exBind (compileRe q) (fun _ => tallyAll rest (addQueryCols t q))
        from rfl] at h
    cases hcq : compileRe q with
    | error e =>
      rw [hcq, exBind_error] at h
      cases h
    | ok r =>
      rw [hcq, exBind_ok] at h
      rw [List.foldl_cons]
      exact ih (addQueryCols t q) u h


/-- C7 (corrected): keyword counting is case-insensitive with respect to
the transcript text, with substring semantics exact for plain literal
queries.  Line 192 hands each query to `re` as a pattern, so the
substring-count reading holds for the metacharacter-free queries: for
every such query `q` (no discovered query colliding with the literal
column suffix "transcript", which would overwrite the transcript columns
mid-tally), the stored `P_<q>`/`C_<q>` columns are exactly the per-row
non-overlapping occurrence counts of `q` in the lower-cased transcript,
with NaN (non-string) transcripts filled to 0. -/
theorem c7_counts_lowercased_transcripts (t : DynTable)
    (keyRows : List (List Cell)) (u : DynTable) (q : Str)
    (hok : search_keys t keyRows = Except.ok u)
    (hq : q ∈ extractQueries keyRows)
    (hplain : plainPat q = true)
    (hqn : ∀ q' ∈ extractQueries keyRows, q' ≠ ("transcript".data)) :
    getCol u (("P_".data) ++ q)
      = (getCol t ("P_transcript".data)).map
          (fun c => fillCell (lowerCountCell q c)) ∧
    getCol u (("C_".data) ++ q)
      = (getCol t ("C_transcript".data)).map
          (fun c => fillCell (lowerCountCell q c)) ∧
    (∀ s : Str, fillCell (lowerCountCell q (Cell.str s))
      = Cell.num ((countSubstr q (asciiLower s) : Int))) := by
  unfold search_keys at hok
  by_cases hp : ("P_transcript".data) ∈ t.cols
  · by_cases hc : ("C_transcript".data) ∈ t.cols
    · simp only [if_pos hp, if_pos hc] at hok
      cases htA : tallyAll (extractQueries keyRows) t with
      | error e =>
        rw [htA, exBind_error] at hok
        cases hok
      | ok w =>
        rw [htA] at hok
        simp only [exBind_ok, Except.ok.injEq] at hok
        subst hok
        obtain rfl := tallyAll_ok (extractQueries keyRows) t w htA
        have hcount := getCol_foldl_count (extractQueries keyRows) t q hq hqn
        have hmemP := (mem_foldl_cols_count (extractQueries keyRows) t hq).1
        have hmemC := (mem_foldl_cols_count (extractQueries keyRows) t hq).2
        refine ⟨?_, ?_, ?_⟩
        · rw [getCol_fillZero _ _ hmemP, hcount.1, List.map_map]
          rfl
        · rw [getCol_fillZero _ _ hmemC, hcount.2, List.map_map]
          rfl
        · intro s
          rw [lowerCountCell_plain hplain]
          rfl
    · simp only [if_pos hp, if_neg hc] at hok
      cases hok
  · simp only [if_neg hp] at hok
    cases hok

/-- Witness for C7: the query "happy" counts the occurrences of "Happy" and
"HAPPY" in a transcript. -/
theorem c7_counts_lowercased_transcripts_witness :
    getCol ((search_keys
        ⟨[("P_transcript".data), ("C_transcript".data)],
         [[(("P_transcript".data), Cell.str ("I am Happy and HAPPY".data)),
           (("C_transcript".data), Cell.blank)]]⟩
        [[Cell.str ("happy".data)]]).toOption.getD ⟨[], []⟩)
      (("P_".data) ++ ("happy".data))
      = (getCol ⟨[("P_transcript".data), ("C_transcript".data)],
         [[(("P_transcript".data), Cell.str ("I am Happy and HAPPY".data)),
           (("C_transcript".data), Cell.blank)]]⟩ ("P_transcript".data)).map
          (fun c => fillCell (lowerCountCell ("happy".data) c)) ∧
    countSubstr ("happy".data) (asciiLower ("I am Happy and HAPPY".data)) = 2 := by
  constructor
  · have h := c7_counts_lowercased_transcripts
      ⟨[("P_transcript".data), ("C_transcript".data)],
       [[(("P_transcript".data), Cell.str ("I am Happy and HAPPY".data)),
         (("C_transcript".data), Cell.blank)]]⟩
      [[Cell.str ("happy".data)]]
      ((search_keys
        ⟨[("P_transcript".data), ("C_transcript".data)],
         [[(("P_transcript".data), Cell.str ("I am Happy and HAPPY".data)),
           (("C_transcript".data), Cell.blank)]]⟩
        [[Cell.str ("happy".data)]]).toOption.getD ⟨[], []⟩)
      ("happy".data) rfl (by decide) (by decide) (by decide)
    exact h.1
  · decide

/-- C7 counterexample: the stored count is not the literal substring
count for every query, because line 192 treats the query as a regex
pattern.  For the query "a.c" over the transcript "abc" the program
stores 1 (the pattern matches the whole text) although the literal query
substring occurs 0 times in it. -/
theorem c7_pattern_query_counterexample :
    getCol ((search_keys
        ⟨[("P_transcript".data), ("C_transcript".data)],
         [[(("P_transcript".data), Cell.str ("abc".data)),
           (("C_transcript".data), Cell.blank)]]⟩
        [[Cell.str ("a.c".data)]]).toOption.getD ⟨[], []⟩)
      (("P_".data) ++ ("a.c".data)) = [Cell.num 1] ∧
    countSubstr ("a.c".data) (asciiLower ("abc".data)) = 0 := by
  exact ⟨by decide, by decide⟩

theorem lowerCh_not_upper (c : Char) :
    ¬ (65 ≤ (lowerCh c).toNat ∧ (lowerCh c).toNat ≤ 90) := by
  unfold lowerCh
  split
  · next h =>
    have hv : (Char.ofNat (c.toNat + 32)).toNat = c.toNat + 32 := by
      unfold Char.ofNat
      rw [dif_pos]
      · rfl
      · constructor
        omega
    rw [hv]
    omega
  · next h => exact h

theorem asciiLower_no_upper (s : Str) :
    ∀ x ∈ asciiLower s, ¬ (65 ≤ x.toNat ∧ x.toNat ≤ 90) := by
  intro x hx
  obtain ⟨c, _, hc⟩ := List.mem_map.mp hx
  rw [← hc]
  exact lowerCh_not_upper c

theorem countSubstrFuel_zero {q : Str} {c0 : Char} (hc : c0 ∈ q)
    (hup : 65 ≤ c0.toNat ∧ c0.toNat ≤ 90) (fuel : Nat) :
    ∀ u : Str, (∀ x ∈ u, ¬ (65 ≤ x.toNat ∧ x.toNat ≤ 90)) →
      countSubstrFuel q fuel u = 0 := by
  induction fuel with
  | zero =>
    intro u _
    rfl
  | succ n ih =>
    intro u hu
    cases u with
    | nil => rfl
    | cons c rest =>
      rw [countSubstrFuel]
      have hpre : ¬ ((!q.isEmpty && q.isPrefixOf (c :: rest)) = true) := by
        intro hcontra
        obtain ⟨_, h2⟩ := Bool.and_eq_true_iff.mp hcontra
        exact hu c0 ((List.isPrefixOf_iff_prefix.mp h2).subset hc) hup
      rw [if_neg hpre]
      exact ih rest (fun x hx => hu x (List.mem_cons_of_mem _ hx))

theorem countSubstr_lower_zero {q : Str} (s : Str)
    (hup : ∃ c ∈ q, 65 ≤ c.toNat ∧ c.toNat ≤ 90) :
    countSubstr q (asciiLower s) = 0 := by
  obtain ⟨c0, hc0, hup0⟩ := hup
  exact countSubstrFuel_zero hc0 hup0 _ _ (asciiLower_no_upper s)

theorem getCol_foldl_count_shape (qs : List Str) (t : DynTable) (q : Str)
    (hmem : q ∈ qs) :
    (∃ cs : List Cell, getCol (qs.foldl addQueryCols t) (("P_".data) ++ q)
        = cs.map (lowerCountCell q)) ∧
    (∃ cs : List Cell, getCol (qs.foldl addQueryCols t) (("C_".data) ++ q)
        = cs.map (lowerCountCell q)) := by
  induction qs generalizing t with
  | nil => cases hmem
  | cons q0 rest ih =>
    rw [List.foldl_cons]
    by_cases hqr : q ∈ rest
    · exact ih _ hqr
    · have hq0 : q = q0 := by
        rcases List.mem_cons.mp hmem with h | h
        · exact h
        · exact absurd h hqr
      subst hq0
      constructor
      · refine ⟨getCol t ("P_transcript".data), ?_⟩
        rw [getCol_foldl_untouched rest (addQueryCols t q) (("P_".data) ++ q)
          (fun q' hq' => ⟨fun hc => hqr (pq_inj hc ▸ hq'),
                          fun hc => pq_ne_cq q q' hc⟩)]
        exact getCol_addQueryCols_P t q
      · refine ⟨getCol t ("C_transcript".data), ?_⟩
        rw [getCol_foldl_untouched rest (addQueryCols t q) (("C_".data) ++ q)
          (fun q' hq' => ⟨fun hc => pq_ne_cq q' q hc.symm,
                          fun hc => hqr (cq_inj hc ▸ hq')⟩)]
        exact getCol_addQueryCols_C t q

theorem fillCell_lowerCount_upper {q : Str} (hplain : plainPat q = true)
    (hup : ∃ c ∈ q, 65 ≤ c.toNat ∧ c.toNat ≤ 90) (c : Cell) :
    fillCell (lowerCountCell q c) = Cell.num 0 := by
  cases c with
  | str s =>
    rw [lowerCountCell_plain hplain, countSubstr_lower_zero s hup]
    rfl
  | blank => rfl
  | num n => rfl

/-- C9 (corrected): line 192 lower-cases the transcript but not the
query, so a plain literal query containing an uppercase ASCII letter can
never occur in the lowered text, and after the final `fillna(0)` its
`P_`/`C_` columns hold 0 in every row, whatever the transcripts are.  The
restriction to plain literal queries is necessary: an uppercase letter
inside a regex escape does count (see the counterexample). -/
theorem c9_uppercase_query_counts_zero (t : DynTable)
    (keyRows : List (List Cell)) (u : DynTable) (q : Str)
    (hok : search_keys t keyRows = Except.ok u)
    (hq : q ∈ extractQueries keyRows)
    (hplain : plainPat q = true)
    (hup : ∃ c ∈ q, 65 ≤ c.toNat ∧ c.toNat ≤ 90) :
    (∀ x ∈ getCol u (("P_".data) ++ q), x = Cell.num 0) ∧
    (∀ x ∈ getCol u (("C_".data) ++ q), x = Cell.num 0) := by
  unfold search_keys at hok
  by_cases hp : ("P_transcript".data) ∈ t.cols
  · by_cases hc : ("C_transcript".data) ∈ t.cols
    · simp only [if_pos hp, if_pos hc] at hok
      cases htA : tallyAll (extractQueries keyRows) t with
      | error e =>
        rw [htA, exBind_error] at hok
        cases hok
      | ok w =>
        rw [htA] at hok
        simp only [exBind_ok, Except.ok.injEq] at hok
        subst hok
        obtain rfl := tallyAll_ok (extractQueries keyRows) t w htA
        have hshape := getCol_foldl_count_shape (extractQueries keyRows) t q hq
        have hmemP := (mem_foldl_cols_count (extractQueries keyRows) t hq).1
        have hmemC := (mem_foldl_cols_count (extractQueries keyRows) t hq).2
        constructor
        · intro x hx
          rw [getCol_fillZero _ _ hmemP] at hx
          obtain ⟨cs, hcs⟩ := hshape.1
          rw [hcs, List.map_map] at hx
          obtain ⟨c, _, hcx⟩ := List.mem_map.mp hx
          rw [← hcx]
          exact fillCell_lowerCount_upper hplain hup c
        · intro x hx
          rw [getCol_fillZero _ _ hmemC] at hx
          obtain ⟨cs, hcs⟩ := hshape.2
          rw [hcs, List.map_map] at hx
          obtain ⟨c, _, hcx⟩ := List.mem_map.mp hx
          rw [← hcx]
          exact fillCell_lowerCount_upper hplain hup c
    · simp only [if_pos hp, if_neg hc] at hok
      cases hok
  · simp only [if_neg hp] at hok
    cases hok

/-- Witness for C9: the query "Happy" stores 0 although the transcript
contains "Happy". -/
theorem c9_uppercase_query_counts_zero_witness :
    getCol ((search_keys
        ⟨[("P_transcript".data), ("C_transcript".data)],
         [[(("P_transcript".data), Cell.str ("I am Happy".data)),
           (("C_transcript".data), Cell.blank)]]⟩
        [[Cell.str ("Happy".data)]]).toOption.getD ⟨[], []⟩)
      (("P_".data) ++ ("Happy".data)) = [Cell.num 0] := by
  have h := (c9_uppercase_query_counts_zero
    ⟨[("P_transcript".data), ("C_transcript".data)],
     [[(("P_transcript".data), Cell.str ("I am Happy".data)),
       (("C_transcript".data), Cell.blank)]]⟩
    [[Cell.str ("Happy".data)]]
    ((search_keys
        ⟨[("P_transcript".data), ("C_transcript".data)],
         [[(("P_transcript".data), Cell.str ("I am Happy".data)),
           (("C_transcript".data), Cell.blank)]]⟩
        [[Cell.str ("Happy".data)]]).toOption.getD ⟨[], []⟩)
    ("Happy".data) rfl (by decide) (by decide) ⟨'H', by decide, by decide⟩).1
  have h0 := h (Cell.num 0) (by decide)
  decide

/-- C9 counterexample: an uppercase letter in the query does not force a
zero count when the letter is part of a regex escape.  The query "\\D"
contains the uppercase letter D, yet line 192 counts the non-digit
characters of the lowered transcript with it: 3 for the transcript
"abc", not 0. -/
theorem c9_regex_query_counterexample :
    ('D' ∈ ("\\D".data) ∧ 65 ≤ ('D').toNat ∧ ('D').toNat ≤ 90) ∧
    getCol ((search_keys
        ⟨[("P_transcript".data), ("C_transcript".data)],
         [[(("P_transcript".data), Cell.str ("abc".data)),
           (("C_transcript".data), Cell.blank)]]⟩
        [[Cell.str ("\\D".data)]]).toOption.getD ⟨[], []⟩)
      (("P_".data) ++ ("\\D".data)) = [Cell.num 3] := by
  exact ⟨by decide, by decide⟩

theorem goodStr_append_left {s : Str} (h : GoodStr s) (u : Str) :
    GoodStr (s ++ u) := by
  obtain ⟨c, hc, hg⟩ := h
  exact ⟨c, List.mem_append_left u hc, hg⟩

theorem goodStr_cons_of_mem {s : Str} {c : Char} (hc : c ∈ s)
    (hg : goodCh c = true) (a : Char) : GoodStr (a :: s) :=
  ⟨c, List.mem_cons_of_mem a hc, hg⟩

theorem lookupRow_mem {t : Table} {k : Str} {r : Row}
    (h : lookupRow t k = some r) : (k, r) ∈ t := by
  induction t with
  | nil => cases h
  | cons p rest ih =>
    obtain ⟨k0, r0⟩ := p
    by_cases hk : k0 = k
    · subst hk
      simp only [lookupRow, if_pos rfl, if_true, Option.some.injEq] at h
      subst h
      exact List.mem_cons_self _ _
    · simp only [lookupRow, if_neg hk] at h
      exact List.mem_cons_of_mem _ (ih h)

/-- `updateRows` only touches the row at `k`, replacing it with
`f (getRow t k)`; anything true of every row stays true if it holds of
that one new row. -/
theorem updateRows_forall_at {Q : Row → Prop} {t : Table} {k : Str}
    {f : Row → Row} (h1 : ∀ p ∈ t, Q p.2) (h2 : Q (f (getRow t k))) :
    ∀ p ∈ updateRows t k f, Q p.2 := by
  induction t with
  | nil =>
    intro p hp
    simp only [updateRows, List.mem_singleton] at hp
    subst hp
    exact h2
  | cons p0 rest ih =>
    obtain ⟨k0, r0⟩ := p0
    intro p hp
    by_cases hk : k0 = k
    · subst hk
      simp only [updateRows, if_pos rfl] at hp
      rcases List.mem_cons.mp hp with hp | hp
      · subst hp
        simpa [getRow, lookupRow] using h2
      · exact h1 p (List.mem_cons_of_mem _ hp)
    · simp only [updateRows, if_neg hk] at hp
      rcases List.mem_cons.mp hp with hp | hp
      · subst hp
        exact h1 (k0, r0) (List.mem_cons_self _ _)
      · refine ih (fun q hq => h1 q (List.mem_cons_of_mem _ hq)) ?_ p hp
        have : getRow ((k0, r0) :: rest) k = getRow rest k := by
          simp [getRow, lookupRow, hk]
        rw [← this]
        exact h2

theorem char_ofNat_toNat {n : Nat} (h : n < 55296) :
    (Char.ofNat n).toNat = n := by
  unfold Char.ofNat
  rw [dif_pos]
  · rfl
  · exact Or.inl h

theorem lowerCh_toNat_cases (c : Char) :
    (lowerCh c).toNat = c.toNat ∨
    ((lowerCh c).toNat = c.toNat + 32 ∧ 65 ≤ c.toNat ∧ c.toNat ≤ 90) := by
  unfold lowerCh
  split
  · next h =>
    right
    exact ⟨char_ofNat_toNat (by omega), h.1, h.2⟩
  · left
    rfl

theorem goodCh_of_lower_p {c : Char} (h : lowerCh c = 'p') : goodCh c = true := by
  have ht : (lowerCh c).toNat = 112 := by rw [h]; rfl
  simp only [goodCh, Bool.or_eq_true, decide_eq_true_eq]
  rcases lowerCh_toNat_cases c with h1 | ⟨h1, h2, h3⟩ <;> omega

theorem goodCh_of_lower_c {c : Char} (h : lowerCh c = 'c') : goodCh c = true := by
  have ht : (lowerCh c).toNat = 99 := by rw [h]; rfl
  simp only [goodCh, Bool.or_eq_true, decide_eq_true_eq]
  rcases lowerCh_toNat_cases c with h1 | ⟨h1, h2, h3⟩ <;> omega

/-- A paragraph that set the current speaker begins with a protected
character. -/
theorem speaker_fired_good {text : Str}
    (h : asciiLower (text.take 5) = parenTag ∨ asciiLower (text.take 5) = childTag) :
    GoodStr text := by
  cases text with
  | nil =>
    rcases h with h | h <;> cases h
  | cons c rest =>
    refine ⟨c, List.mem_cons_self _ _, ?_⟩
    rcases h with h | h
    · have h2 : lowerCh c :: asciiLower (rest.take 4) = parenTag := h
      injection h2 with h3 _
      exact goodCh_of_lower_p h3
    · have h2 : lowerCh c :: asciiLower (rest.take 4) = childTag := h
      injection h2 with h3 _
      exact goodCh_of_lower_c h3

/-- A paragraph with a page-marker match contains an opening bracket. -/
theorem pageAt_head {s : Str} {v : Str × Nat} (h : pageAt s = some v) :
    ∃ rest, s = '[' :: rest := by
  unfold pageAt at h
  split at h
  · next p rest => exact ⟨p :: 'a' :: 'g' :: 'e' :: ' ' :: rest, rfl⟩
  · cases h

theorem searchPage_good {text lbl : Str} (h : searchPage text = some lbl) :
    GoodStr text := by
  induction text with
  | nil => cases h
  | cons c rest ih =>
    rw [searchPage] at h
    cases hp : pageAt (c :: rest) with
    | some v =>
      obtain ⟨r2, hr2⟩ := pageAt_head hp
      have hc : c = '[' := by
        injection hr2 with h1 _
      refine ⟨'[', ?_, by decide⟩
      rw [hc]
      exact List.mem_cons_self _ _
    | none =>
      rw [hp] at h
      obtain ⟨c0, hc0, hg⟩ := ih h
      exact ⟨c0, List.mem_cons_of_mem _ hc0, hg⟩

theorem goodStr_cons {s : Str} (h : GoodStr s) (a : Char) : GoodStr (a :: s) := by
  obtain ⟨c, hc, hg⟩ := h
  exact ⟨c, List.mem_cons_of_mem a hc, hg⟩

theorem rowTransOk_emptyRow : RowTransOk emptyRow := by
  constructor <;> intro s hs <;> cases hs

theorem getRow_rowTransOk {tbl : Table} (hT : TranscriptsOk tbl) (k : Str) :
    RowTransOk (getRow tbl k) := by
  unfold getRow
  cases hl : lookupRow tbl k with
  | none => exact rowTransOk_emptyRow
  | some r => exact hT (k, r) (lookupRow_mem hl)

theorem transcriptStep_transcriptsOk {sp : Option Str} {idx : Str}
    {tblX : Table} {text : Str} (hT : TranscriptsOk tblX)
    (hcase : GoodStr (' ' :: text) ∨
      ((sp = some parenTag → (getRow tblX idx).P_transcript ≠ none) ∧
       (sp = some childTag → (getRow tblX idx).C_transcript ≠ none))) :
    TranscriptsOk (transcriptStep sp idx tblX text) := by
  unfold transcriptStep
  split
  · next hsp =>
    refine updateRows_forall_at hT ?_
    have hr := getRow_rowTransOk hT idx
    constructor
    · intro s hs
      simp only [Option.some.injEq] at hs
      subst hs
      cases hP : (getRow tblX idx).P_transcript with
      | some s0 => exact goodStr_append_left (hr.1 s0 hP) _
      | none =>
        rcases hcase with hg | hvac
        · exact hg
        · exact absurd hP (hvac.1 hsp)
    · intro s hs
      exact hr.2 s hs
  · split
    · next hsp =>
      refine updateRows_forall_at hT ?_
      have hr := getRow_rowTransOk hT idx
      constructor
      · intro s hs
        exact hr.1 s hs
      · intro s hs
        simp only [Option.some.injEq] at hs
        subst hs
        cases hC : (getRow tblX idx).C_transcript with
        | some s0 => exact goodStr_append_left (hr.2 s0 hC) _
        | none =>
          rcases hcase with hg | hvac
          · exact hg
          · exact absurd hC (hvac.2 hsp)
    · exact hT

theorem initWcStep_transcriptsOk {idx : Str} {tblX : Table}
    (hT : TranscriptsOk tblX) : TranscriptsOk (initWcStep idx tblX) := by
  refine updateRows_forall hT ?_ rowTransOk_emptyRow
  intro r hr
  exact ⟨fun s hs => hr.1 s hs, fun s hs => hr.2 s hs⟩

theorem wcStep_transcriptsOk {sp : Option Str} {idx : Str} {tblX : Table}
    {text : Str} (hT : TranscriptsOk tblX) :
    TranscriptsOk (wcStep sp idx tblX text) := by
  unfold wcStep
  split
  · refine updateRows_forall hT ?_ rowTransOk_emptyRow
    intro r hr
    exact ⟨fun s hs => hr.1 s hs, fun s hs => hr.2 s hs⟩
  · split
    · refine updateRows_forall hT ?_ rowTransOk_emptyRow
      intro r hr
      exact ⟨fun s hs => hr.1 s hs, fun s hs => hr.2 s hs⟩
    · exact hT

theorem markerStep_transcriptsOk {doc lbl : Str} {tbl : Table}
    (hT : TranscriptsOk tbl) :
    TranscriptsOk (updateRows tbl (rowIndexOf doc lbl)
      (fun r => { r with ID := some doc, PageNum := some lbl })) := by
  refine updateRows_forall hT ?_ rowTransOk_emptyRow
  intro r hr
  exact ⟨fun s hs => hr.1 s hs, fun s hs => hr.2 s hs⟩

theorem getRow_initWcStep_P (idx : Str) (tblX : Table) (k : Str) :
    (getRow (initWcStep idx tblX) k).P_transcript
      = (getRow tblX k).P_transcript := by
  unfold initWcStep
  by_cases hk : k = idx
  · subst hk
    rw [getRow_updateRows_self]
  · rw [getRow_updateRows_ne _ hk]

theorem getRow_initWcStep_C (idx : Str) (tblX : Table) (k : Str) :
    (getRow (initWcStep idx tblX) k).C_transcript
      = (getRow tblX k).C_transcript := by
  unfold initWcStep
  by_cases hk : k = idx
  · subst hk
    rw [getRow_updateRows_self]
  · rw [getRow_updateRows_ne _ hk]

theorem getRow_wcStep_P (sp : Option Str) (idx : Str) (tblX : Table)
    (text : Str) (k : Str) :
    (getRow (wcStep sp idx tblX text) k).P_transcript
      = (getRow tblX k).P_transcript := by
  unfold wcStep
  split
  · by_cases hk : k = idx
    · subst hk
      rw [getRow_updateRows_self]
    · rw [getRow_updateRows_ne _ hk]
  · split
    · by_cases hk : k = idx
      · subst hk
        rw [getRow_updateRows_self]
      · rw [getRow_updateRows_ne _ hk]
    · rfl

theorem getRow_wcStep_C (sp : Option Str) (idx : Str) (tblX : Table)
    (text : Str) (k : Str) :
    (getRow (wcStep sp idx tblX text) k).C_transcript
      = (getRow tblX k).C_transcript := by
  unfold wcStep
  split
  · by_cases hk : k = idx
    · subst hk
      rw [getRow_updateRows_self]
    · rw [getRow_updateRows_ne _ hk]
  · split
    · by_cases hk : k = idx
      · subst hk
        rw [getRow_updateRows_self]
      · rw [getRow_updateRows_ne _ hk]
    · rfl

theorem getRow_transcriptStep_P_set (idx : Str) (tblX : Table) (text : Str) :
    (getRow (transcriptStep (some parenTag) idx tblX text) idx).P_transcript
      = some (((getRow tblX idx).P_transcript.getD []) ++ ' ' :: text) := by
  unfold transcriptStep
  rw [if_pos rfl, getRow_updateRows_self]

theorem getRow_transcriptStep_C_set (idx : Str) (tblX : Table) (text : Str) :
    (getRow (transcriptStep (some childTag) idx tblX text) idx).C_transcript
      = some (((getRow tblX idx).C_transcript.getD []) ++ ' ' :: text) := by
  unfold transcriptStep
  rw [if_neg (by decide), if_pos rfl, getRow_updateRows_self]

theorem updatePara_ok {doc : Str} {st : ParseState} {tbl : Table} {text : Str}
    (hT : TranscriptsOk tbl) (hS : StateOk st tbl) :
    TranscriptsOk (updatePara doc (st, tbl) text).2 ∧
    StateOk (updatePara doc (st, tbl) text).1 (updatePara doc (st, tbl) text).2 := by
  by_cases h0 : text = []
  · subst h0
    simp only [updatePara, if_true]
    exact ⟨hT, hS⟩
  · cases hsp : searchPage text with
    | some lbl =>
      rw [updatePara_eq_marker h0 hsp]
      have hgood : GoodStr (' ' :: text) :=
        goodStr_cons (searchPage_good hsp) ' '
      have hT1 := @transcriptStep_transcriptsOk
        (speakerStep st text).currSpeaker (rowIndexOf doc lbl)
        (updateRows tbl (rowIndexOf doc lbl)
          (fun r => { r with ID := some doc, PageNum := some lbl })) text
        (markerStep_transcriptsOk hT) (Or.inl hgood)
      refine ⟨wcStep_transcriptsOk (initWcStep_transcriptsOk hT1), ?_, ?_⟩
      · intro i hspk hidx
        simp only [Option.some.injEq] at hidx
        subst hidx
        simp only at hspk
        rw [getRow_wcStep_P, getRow_initWcStep_P]
        rw [hspk, getRow_transcriptStep_P_set]
        exact fun h => Option.noConfusion h
      · intro i hspk hidx
        simp only [Option.some.injEq] at hidx
        subst hidx
        simp only at hspk
        rw [getRow_wcStep_C, getRow_initWcStep_C]
        rw [hspk, getRow_transcriptStep_C_set]
        exact fun h => Option.noConfusion h
    | none =>
      cases hci : st.currIndex with
      | none =>
        rw [updatePara_eq_nomark_none h0 hsp hci]
        refine ⟨hT, ?_, ?_⟩
        · intro i _ hidx
          rw [speakerStep_currIndex, hci] at hidx
          cases hidx
        · intro i _ hidx
          rw [speakerStep_currIndex, hci] at hidx
          cases hidx
      | some idx =>
        rw [updatePara_eq_nomark_some h0 hsp hci]
        have hcase : GoodStr (' ' :: text) ∨
            (((speakerStep st text).currSpeaker = some parenTag →
               (getRow tbl idx).P_transcript ≠ none) ∧
             ((speakerStep st text).currSpeaker = some childTag →
               (getRow tbl idx).C_transcript ≠ none)) := by
          by_cases hfired : asciiLower (text.take 5) = parenTag ∨
              asciiLower (text.take 5) = childTag
          · exact Or.inl (goodStr_cons (speaker_fired_good hfired) ' ')
          · right
            have hsame : (speakerStep st text).currSpeaker = st.currSpeaker := by
              unfold speakerStep
              rw [if_neg hfired]
            rw [hsame]
            exact ⟨fun h => hS.1 idx h hci, fun h => hS.2 idx h hci⟩
        have hT1 := transcriptStep_transcriptsOk hT hcase
        refine ⟨wcStep_transcriptsOk (initWcStep_transcriptsOk hT1), ?_, ?_⟩
        · intro i hspk hidx
          rw [speakerStep_currIndex, hci] at hidx
          simp only [Option.some.injEq] at hidx
          subst hidx
          rw [getRow_wcStep_P, getRow_initWcStep_P]
          rw [hspk, getRow_transcriptStep_P_set]
          exact fun h => Option.noConfusion h
        · intro i hspk hidx
          rw [speakerStep_currIndex, hci] at hidx
          simp only [Option.some.injEq] at hidx
          subst hidx
          rw [getRow_wcStep_C, getRow_initWcStep_C]
          rw [hspk, getRow_transcriptStep_C_set]
          exact fun h => Option.noConfusion h

theorem foldl_updatePara_ok {doc : Str} (paras : List Str)
    (acc : ParseState × Table) (hT : TranscriptsOk acc.2)
    (hS : StateOk acc.1 acc.2) :
    TranscriptsOk (paras.foldl (updatePara doc) acc).2 := by
  induction paras generalizing acc with
  | nil => exact hT
  | cons text rest ih =>
    obtain ⟨st, tbl⟩ := acc
    have h := @updatePara_ok doc st tbl text hT hS
    exact ih _ h.1 h.2

theorem updateWordCount_transcriptsOk (doc : Str) (paras : List Str)
    {tbl : Table} (hT : TranscriptsOk tbl) :
    TranscriptsOk (updateWordCount doc paras tbl) := by
  unfold updateWordCount
  refine foldl_updatePara_ok paras (⟨none, none, none⟩, tbl) hT ⟨?_, ?_⟩
  · intro i _ hidx
    cases hidx
  · intro i _ hidx
    cases hidx

theorem setUpTable_transcriptsOk (docs : List (Str × List Str)) :
    TranscriptsOk (setUpTable docs) := by
  unfold setUpTable
  have h : ∀ entries (tbl : Table), TranscriptsOk tbl →
      TranscriptsOk (parseBatch tbl entries) := by
    intro entries
    induction entries with
    | nil => intro tbl hT; exact hT
    | cons d rest ih =>
      intro tbl hT
      exact ih _ (updateWordCount_transcriptsOk _ _ hT)
  refine h _ [] ?_
  intro p hp
  cases hp

theorem naLike_no_good {s : Str} (h : naLike s = true) :
    ∀ c ∈ s, goodCh c = false := by
  have hmem : s ∈ [("#N/A".data), ("#N/A N/A".data), ("#NA".data),
      ("-1.#IND".data), ("-1.#QNAN".data), ("-NaN".data), ("-nan".data),
      ("1.#IND".data), ("1.#QNAN".data), ("<NA>".data), ("N/A".data),
      ("NA".data), ("NULL".data), ("NaN".data), ("None".data), ("n/a".data),
      ("nan".data), ("null".data)] := by
    simpa [naLike] using h
  fin_cases hmem <;> decide

theorem goodCh_not_numChar {c : Char} (h : goodCh c = true) :
    numChar c = false := by
  simp only [goodCh, Bool.or_eq_true, decide_eq_true_eq] at h
  by_contra hcon
  rw [Bool.not_eq_false] at hcon
  simp only [numChar, isDigitCh, Bool.or_eq_true, Bool.and_eq_true,
    decide_eq_true_eq] at hcon
  rcases hcon with ((((⟨h1, h2⟩ | h1) | h1) | h1) | h1) | h1
  · omega
  · subst h1
    revert h
    decide
  · subst h1
    revert h
    decide
  · subst h1
    revert h
    decide
  · subst h1
    revert h
    decide
  · subst h1
    revert h
    decide

theorem goodCh_not_blankCh {c : Char} (h : goodCh c = true) :
    isBlankCh c = false := by
  by_contra hcon
  rw [Bool.not_eq_false] at hcon
  simp only [isBlankCh, Bool.or_eq_true, decide_eq_true_eq] at hcon
  rcases hcon with h1 | h1
  · subst h1
    revert h
    decide
  · subst h1
    revert h
    decide

theorem mem_dropWhile_of_neg {p : Char → Bool} {c : Char} {l : Str}
    (hc : c ∈ l) (hp : p c = false) : c ∈ l.dropWhile p := by
  induction l with
  | nil => cases hc
  | cons a t ih =>
    by_cases pa : p a = true
    · rw [List.dropWhile_cons_of_pos pa]
      rcases List.mem_cons.mp hc with hc | hc
      · subst hc
        rw [hp] at pa
        cases pa
      · exact ih hc
    · rw [List.dropWhile_cons_of_neg pa]
      exact hc

theorem mem_trimBlanks {c : Char} {s : Str} (hc : c ∈ s)
    (hb : isBlankCh c = false) : c ∈ trimBlanks s := by
  unfold trimBlanks
  rw [List.mem_reverse]
  refine mem_dropWhile_of_neg ?_ hb
  rw [List.mem_reverse]
  exact mem_dropWhile_of_neg hc hb

/-- A protected string survives the CSV reader as text. -/
theorem typeCell_good {s : Str} (h : GoodStr s) : typeCell s = Cell.str s := by
  obtain ⟨c, hc, hg⟩ := h
  have hne : s.isEmpty = false := by
    cases s with
    | nil => cases hc
    | cons a t => rfl
  have hna : naLike s = false := by
    by_contra hcon
    rw [Bool.not_eq_false] at hcon
    have h2 := naLike_no_good hcon c hc
    rw [hg] at h2
    cases h2
  have hnum : numLike s = false := by
    by_contra hcon
    rw [Bool.not_eq_false] at hcon
    unfold numLike at hcon
    obtain ⟨h12, _⟩ := Bool.and_eq_true_iff.mp hcon
    obtain ⟨_, hall⟩ := Bool.and_eq_true_iff.mp h12
    have hmem := mem_trimBlanks hc (goodCh_not_blankCh hg)
    have h3 := List.all_eq_true.mp hall c hmem
    rw [goodCh_not_numChar hg] at h3
    cases h3
  unfold typeCell
  simp [hne, hna, hnum]

theorem agree_mono {bad1 bad2 : Str → Prop} {t1 t2 : DynTable}
    (h : Agree bad1 t1 t2) (himp : ∀ c, ¬ bad2 c → ¬ bad1 c) :
    Agree bad2 t1 t2 :=
  ⟨h.1, fun c hc => h.2.1 c (himp c hc), fun c hc => h.2.2 c (himp c hc)⟩

theorem mem_addColName_iff {cols : List Str} {c x : Str} :
    x ∈ addColName cols c ↔ x ∈ cols ∨ x = c := by
  unfold addColName
  by_cases h : c ∈ cols
  · simp only [if_pos h]
    constructor
    · exact Or.inl
    · intro hx
      rcases hx with hx | hx
      · exact hx
      · rw [hx]
        exact h
  · simp [if_neg h]

theorem mem_addQueryCols_iff {t : DynTable} {q x : Str} :
    x ∈ (addQueryCols t q).cols
      ↔ x ∈ t.cols ∨ x = ("P_".data) ++ q ∨ x = ("C_".data) ++ q := by
  unfold addQueryCols setCol
  simp only [mem_addColName_iff]
  constructor
  · intro h
    rcases h with (h | h) | h
    · exact Or.inl h
    · exact Or.inr (Or.inl h)
    · exact Or.inr (Or.inr h)
  · intro h
    rcases h with h | h | h
    · exact Or.inl (Or.inl h)
    · exact Or.inl (Or.inr h)
    · exact Or.inr h

theorem agree_addQueryCols {bad : Str → Prop} {t1 t2 : DynTable} (q : Str)
    (hA : Agree bad t1 t2) (hPt : ¬ bad ("P_transcript".data))
    (hCt : ¬ bad ("C_transcript".data)) :
    Agree (fun c => bad c ∧ c ≠ ("P_".data) ++ q ∧ c ≠ ("C_".data) ++ q)
      (addQueryCols t1 q) (addQueryCols t2 q) := by
  refine ⟨?_, ?_, ?_⟩
  · rw [addQueryCols_rows_length, addQueryCols_rows_length]
    exact hA.1
  · intro c hc
    simp only [mem_addQueryCols_iff]
    by_cases hP : c = ("P_".data) ++ q
    · subst hP
      constructor
      · intro _
        exact Or.inr (Or.inl rfl)
      · intro _
        exact Or.inr (Or.inl rfl)
    · by_cases hC : c = ("C_".data) ++ q
      · subst hC
        constructor
        · intro _
          exact Or.inr (Or.inr rfl)
        · intro _
          exact Or.inr (Or.inr rfl)
      · have hbad : ¬ bad c := fun hb => hc ⟨hb, hP, hC⟩
        rw [hA.2.1 c hbad]
  · intro c hc
    by_cases hP : c = ("P_".data) ++ q
    · subst hP
      rw [getCol_addQueryCols_P, getCol_addQueryCols_P,
        hA.2.2 ("P_transcript".data) hPt]
    · by_cases hC : c = ("C_".data) ++ q
      · subst hC
        rw [getCol_addQueryCols_C, getCol_addQueryCols_C,
          hA.2.2 ("C_transcript".data) hCt]
      · have hbad : ¬ bad c := fun hb => hc ⟨hb, hP, hC⟩
        rw [getCol_addQueryCols_ne t1 q hP hC, getCol_addQueryCols_ne t2 q hP hC]
        exact hA.2.2 c hbad

theorem agree_foldl {bad : Str → Prop} (qs : List Str) {t1 t2 : DynTable}
    (hA : Agree bad t1 t2) (hPt : ¬ bad ("P_transcript".data))
    (hCt : ¬ bad ("C_transcript".data)) :
    Agree (fun c => bad c ∧ ∀ q ∈ qs, c ≠ ("P_".data) ++ q ∧ c ≠ ("C_".data) ++ q)
      (qs.foldl addQueryCols t1) (qs.foldl addQueryCols t2) := by
  induction qs generalizing bad t1 t2 with
  | nil =>
    refine agree_mono hA ?_
    intro c hc hb
    exact hc ⟨hb, fun q hq => absurd hq (List.not_mem_nil q)⟩
  | cons q0 rest ih =>
    rw [List.foldl_cons, List.foldl_cons]
    have h1 := agree_addQueryCols q0 hA hPt hCt
    have h2 := ih h1 (fun hb => hPt hb.1) (fun hb => hCt hb.1)
    refine agree_mono h2 ?_
    intro c hc hb
    refine hc ⟨hb.1.1, ?_⟩
    intro q hq
    rcases List.mem_cons.mp hq with hq | hq
    · subst hq
      exact ⟨hb.1.2.1, hb.1.2.2⟩
    · exact hb.2 q hq

theorem getCol_fillZero_notmem (t : DynTable) (c : Str) (h : c ∉ t.cols) :
    getCol (fillZero t) c = List.replicate t.rows.length Cell.blank := by
  unfold fillZero getCol
  rw [List.map_map]
  have hpt : ∀ row ∈ t.rows,
      ((fun row => getCell row c) ∘
        (fun row => t.cols.map (fun c0 => (c0, fillCell (getCell row c0))))) row
      = Cell.blank := by
    intro row _
    simp [Function.comp, getCell, lookupCell_mapped, h]
  rw [List.map_congr_left hpt]
  simp

theorem agree_fillZero {bad : Str → Prop} {t1 t2 : DynTable}
    (hA : Agree bad t1 t2) :
    Agree bad (fillZero t1) (fillZero t2) := by
  refine ⟨?_, ?_, ?_⟩
  · simp only [fillZero, List.length_map]
    exact hA.1
  · intro c hc
    rw [fillZero_cols, fillZero_cols]
    exact hA.2.1 c hc
  · intro c hc
    by_cases hm : c ∈ t1.cols
    · have hm2 : c ∈ t2.cols := (hA.2.1 c hc).mp hm
      rw [getCol_fillZero _ _ hm, getCol_fillZero _ _ hm2, hA.2.2 c hc]
    · have hm2 : c ∉ t2.cols := fun h2 => hm ((hA.2.1 c hc).mpr h2)
      rw [getCol_fillZero_notmem _ _ hm, getCol_fillZero_notmem _ _ hm2, hA.1]

theorem getCell_loaded_Pt (k : Str) (r : Row) :
    getCell ((savedRow k r).map (fun q => (q.1, typeCell q.2)))
      ("P_transcript".data) = typeCell (rawOfOptStr r.P_transcript) := rfl

theorem getCell_loaded_Ct (k : Str) (r : Row) :
    getCell ((savedRow k r).map (fun q => (q.1, typeCell q.2)))
      ("C_transcript".data) = typeCell (rawOfOptStr r.C_transcript) := rfl

theorem getCell_dyn_Pt (r : Row) :
    getCell [(("ID".data), cellOfOptStr r.ID),
      (("PageNum".data), cellOfOptStr r.PageNum),
      (("P_transcript".data), cellOfOptStr r.P_transcript),
      (("C_transcript".data), cellOfOptStr r.C_transcript),
      (("P_WordCount".data), cellOfOptInt r.P_WordCount),
      (("C_WordCount".data), cellOfOptInt r.C_WordCount)]
      ("P_transcript".data) = cellOfOptStr r.P_transcript := rfl

theorem getCell_dyn_Ct (r : Row) :
    getCell [(("ID".data), cellOfOptStr r.ID),
      (("PageNum".data), cellOfOptStr r.PageNum),
      (("P_transcript".data), cellOfOptStr r.P_transcript),
      (("C_transcript".data), cellOfOptStr r.C_transcript),
      (("P_WordCount".data), cellOfOptInt r.P_WordCount),
      (("C_WordCount".data), cellOfOptInt r.C_WordCount)]
      ("C_transcript".data) = cellOfOptStr r.C_transcript := rfl

theorem typeCell_nil : typeCell [] = Cell.blank := rfl

theorem getCell_loaded_other (k : Str) (r : Row) {c : Str} (h : c ∉ loadCols) :
    getCell ((savedRow k r).map (fun q => (q.1, typeCell q.2))) c = Cell.blank := by
  have h1 : ¬ (("Participant_ID".data) = c) :=
    fun heq => h (heq ▸ (by decide : ("Participant_ID".data) ∈ loadCols))
  have h2 : ¬ (("ID".data) = c) :=
    fun heq => h (heq ▸ (by decide : ("ID".data) ∈ loadCols))
  have h3 : ¬ (("PageNum".data) = c) :=
    fun heq => h (heq ▸ (by decide : ("PageNum".data) ∈ loadCols))
  have h4 : ¬ (("P_transcript".data) = c) :=
    fun heq => h (heq ▸ (by decide : ("P_transcript".data) ∈ loadCols))
  have h5 : ¬ (("C_transcript".data) = c) :=
    fun heq => h (heq ▸ (by decide : ("C_transcript".data) ∈ loadCols))
  have h6 : ¬ (("P_WordCount".data) = c) :=
    fun heq => h (heq ▸ (by decide : ("P_WordCount".data) ∈ loadCols))
  have h7 : ¬ (("C_WordCount".data) = c) :=
    fun heq => h (heq ▸ (by decide : ("C_WordCount".data) ∈ loadCols))
  simp [savedRow, getCell, lookupCell, h1, h2, h3, h4, h5, h6, h7]

theorem getCell_dyn_other (r : Row) {c : Str} (h : c ∉ dynCols) :
    getCell [(("ID".data), cellOfOptStr r.ID),
      (("PageNum".data), cellOfOptStr r.PageNum),
      (("P_transcript".data), cellOfOptStr r.P_transcript),
      (("C_transcript".data), cellOfOptStr r.C_transcript),
      (("P_WordCount".data), cellOfOptInt r.P_WordCount),
      (("C_WordCount".data), cellOfOptInt r.C_WordCount)] c = Cell.blank := by
  have h2 : ¬ (("ID".data) = c) :=
    fun heq => h (heq ▸ (by decide : ("ID".data) ∈ dynCols))
  have h3 : ¬ (("PageNum".data) = c) :=
    fun heq => h (heq ▸ (by decide : ("PageNum".data) ∈ dynCols))
  have h4 : ¬ (("P_transcript".data) = c) :=
    fun heq => h (heq ▸ (by decide : ("P_transcript".data) ∈ dynCols))
  have h5 : ¬ (("C_transcript".data) = c) :=
    fun heq => h (heq ▸ (by decide : ("C_transcript".data) ∈ dynCols))
  have h6 : ¬ (("P_WordCount".data) = c) :=
    fun heq => h (heq ▸ (by decide : ("P_WordCount".data) ∈ dynCols))
  have h7 : ¬ (("C_WordCount".data) = c) :=
    fun heq => h (heq ▸ (by decide : ("C_WordCount".data) ∈ dynCols))
  simp [getCell, lookupCell, h2, h3, h4, h5, h6, h7]

theorem notin_loadCols {c : Str} (hc : c ∉ retypedCols)
    (hPt : c ≠ ("P_transcript".data)) (hCt : c ≠ ("C_transcript".data)) :
    c ∉ loadCols := by
  intro hmem
  simp only [loadCols, List.mem_cons, List.not_mem_nil, or_false] at hmem
  rcases hmem with h | h | h | h | h | h | h
  · exact hc (h ▸ (by decide : ("Participant_ID".data) ∈ retypedCols))
  · exact hc (h ▸ (by decide : ("ID".data) ∈ retypedCols))
  · exact hc (h ▸ (by decide : ("PageNum".data) ∈ retypedCols))
  · exact hPt h
  · exact hCt h
  · exact hc (h ▸ (by decide : ("P_WordCount".data) ∈ retypedCols))
  · exact hc (h ▸ (by decide : ("C_WordCount".data) ∈ retypedCols))

theorem notin_dynCols {c : Str} (hc : c ∉ retypedCols)
    (hPt : c ≠ ("P_transcript".data)) (hCt : c ≠ ("C_transcript".data)) :
    c ∉ dynCols := by
  intro hmem
  simp only [dynCols, List.mem_cons, List.not_mem_nil, or_false] at hmem
  rcases hmem with h | h | h | h | h | h
  · exact hc (h ▸ (by decide : ("ID".data) ∈ retypedCols))
  · exact hc (h ▸ (by decide : ("PageNum".data) ∈ retypedCols))
  · exact hPt h
  · exact hCt h
  · exact hc (h ▸ (by decide : ("P_WordCount".data) ∈ retypedCols))
  · exact hc (h ▸ (by decide : ("C_WordCount".data) ∈ retypedCols))

/-- After parsing, the reloaded checkpoint and the in-memory table agree on
every column that keyword counting can read, because the transcript cells
re-type to the very same text. -/
theorem agree_load_asDyn {T : Table} (hT : TranscriptsOk T) :
    Agree (fun c => c ∈ retypedCols) (loadTable T) (asDyn T) := by
  refine ⟨?_, ?_, ?_⟩
  · simp [loadTable, asDyn]
  · intro c hc
    have hPID : ¬ (c = ("Participant_ID".data)) :=
      fun heq => hc (heq ▸ (by decide : ("Participant_ID".data) ∈ retypedCols))
    show c ∈ loadCols ↔ c ∈ dynCols
    have hload : loadCols = ("Participant_ID".data) :: dynCols := rfl
    rw [hload, List.mem_cons]
    constructor
    · intro h
      rcases h with h | h
      · exact absurd h hPID
      · exact h
    · exact Or.inr
  · intro c hc
    show getCol (loadTable T) c = getCol (asDyn T) c
    unfold loadTable asDyn getCol
    simp only [List.map_map]
    refine List.map_congr_left ?_
    intro p hp
    simp only [Function.comp]
    by_cases hPt : c = ("P_transcript".data)
    · subst hPt
      rw [getCell_loaded_Pt, getCell_dyn_Pt]
      cases hx : p.2.P_transcript with
      | none => rfl
      | some s =>
        have hgood : GoodStr s := (hT p hp).1 s hx
        simp only [rawOfOptStr, cellOfOptStr]
        exact typeCell_good hgood
    · by_cases hCt : c = ("C_transcript".data)
      · subst hCt
        rw [getCell_loaded_Ct, getCell_dyn_Ct]
        cases hx : p.2.C_transcript with
        | none => rfl
        | some s =>
          have hgood : GoodStr s := (hT p hp).2 s hx
          simp only [rawOfOptStr, cellOfOptStr]
          exact typeCell_good hgood
      · rw [getCell_loaded_other _ _ (notin_loadCols hc hPt hCt),
          getCell_dyn_other _ (notin_dynCols hc hPt hCt)]

/-- C8: the round trip save → reload → tally yields the same per-row
counts, for every query, as tallying the in-memory table right after
parsing: the two runs agree on every column outside `retypedCols`, and
count columns are computed from the transcript columns only, which survive
re-typing verbatim. -/
theorem c8_roundtrip_counts_equal (docs : List (Str × List Str))
    (keyRows : List (List Cell)) (u1 u2 : DynTable) (q : Str)
    (h1 : search_keys (loadTable (setUpTable docs)) keyRows = Except.ok u1)
    (h2 : search_keys (asDyn (setUpTable docs)) keyRows = Except.ok u2)
    (hq : q ∈ extractQueries keyRows) :
    getCol u1 (("P_".data) ++ q) = getCol u2 (("P_".data) ++ q) ∧
    getCol u1 (("C_".data) ++ q) = getCol u2 (("C_".data) ++ q) := by
  unfold search_keys at h1 h2
  have hl1 : ("P_transcript".data) ∈ (loadTable (setUpTable docs)).cols := by
    show ("P_transcript".data) ∈ loadCols
    decide
  have hl2 : ("C_transcript".data) ∈ (loadTable (setUpTable docs)).cols := by
    show ("C_transcript".data) ∈ loadCols
    decide
  have hd1 : ("P_transcript".data) ∈ (asDyn (setUpTable docs)).cols := by
    show ("P_transcript".data) ∈ dynCols
    decide
  have hd2 : ("C_transcript".data) ∈ (asDyn (setUpTable docs)).cols := by
    show ("C_transcript".data) ∈ dynCols
    decide
  rw [if_pos hl1, if_pos hl2] at h1
  rw [if_pos hd1, if_pos hd2] at h2
  cases htA1 : tallyAll (extractQueries keyRows) (loadTable (setUpTable docs)) with
  | error e =>
    rw [htA1, exBind_error] at h1
    cases h1
  | ok w1 =>
  cases htA2 : tallyAll (extractQueries keyRows) (asDyn (setUpTable docs)) with
  | error e2 =>
    rw [htA2, exBind_error] at h2
    cases h2
  | ok w2 =>
  rw [htA1] at h1
  rw [htA2] at h2
  simp only [exBind_ok, Except.ok.injEq] at h1 h2
  subst h1
  subst h2
  obtain rfl :=
    tallyAll_ok (extractQueries keyRows) (loadTable (setUpTable docs)) w1 htA1
  obtain rfl :=
    tallyAll_ok (extractQueries keyRows) (asDyn (setUpTable docs)) w2 htA2
  have hA0 := agree_load_asDyn (setUpTable_transcriptsOk docs)
  have hAf := agree_foldl (extractQueries keyRows) hA0
    (by decide) (by decide)
  have hAz := agree_fillZero hAf
  constructor
  · exact hAz.2.2 _ (fun hb => (hb.2 q hq).1 rfl)
  · exact hAz.2.2 _ (fun hb => (hb.2 q hq).2 rfl)

/-- Witness for C8 on a one-document, one-keyword run. -/
theorem c8_roundtrip_counts_equal_witness :
    getCol exLoadedRun (("P_".data) ++ ("happy".data))
      = getCol exDirectRun (("P_".data) ++ ("happy".data)) ∧
    getCol exLoadedRun (("C_".data) ++ ("happy".data))
      = getCol exDirectRun (("C_".data) ++ ("happy".data)) :=
  c8_roundtrip_counts_equal exDocs exKeys exLoadedRun exDirectRun
    ("happy".data) rfl rfl (by decide)
